import Mathlib

/-!
Verification of the OpenLinks short-video sync plugin.

This file gives a shallow embedding of the core of the repository:

* `src/utils/get_videosdata.ts` — the sync/dedup engine `getVideosData`:
  canonical-id normalization (`trim().toLowerCase()`), the paginated
  dedup-index scan, the per-record field construction (including the
  publish-date normalizer), insert/update classification, and the chunked
  batch commits;
* `src/index.tsx` — the pipeline reconciliation loop of `handleVideoText`
  (which items contribute a transcript to the final batch write and the
  one-by-one fallback on batch failure) and the subscription scheduler
  loop of `bloggersSubscribe` / `cancelSubscription`.

JS numbers are modelled as `Int` (all quantities involved are integral and
far below 2^53, where JS arithmetic is exact), JS strings as `String`,
`null`/`undefined` as `Option`, and thrown-and-caught exceptions as
explicit outcome values (`Except`/`Bool` oracles deciding whether a remote
call succeeds).
-/

namespace OpenLinks

/-! ### Canonical id normalization

`get_videosdata.ts` lines 369 and 506: both the stored cell text and the
incoming `aweme_id` are canonicalized by `String(x).trim().toLowerCase()`.
We model trimming over the ASCII whitespace characters and `Char.toLower`
(ASCII case mapping), which is the fragment of the JS semantics exercised
by the identifiers involved. -/

def jsIsSpace (c : Char) : Bool :=
  c = ' ' || c = '\t' || c = '\n' || c = '\r' || c = '\x0b' || c = '\x0c'

def trimChars (l : List Char) : List Char :=
  ((l.dropWhile jsIsSpace).reverse.dropWhile jsIsSpace).reverse

def cleanId (s : String) : String :=
  String.mk ((trimChars s.data).map Char.toLower)

/-! ### Date normalization (`get_videosdata.ts` lines 412–478)

The raw publish time is a string, a number, or null.  Four rules apply in
order: exact 8-digit `YYYYMMDD`; a year-sep-month-sep-day prefix (separator `-` or `/`)
handed to the JS `Date` constructor; an all-digit timestamp string; a
numeric timestamp.  Only the last two rules check the resulting year
against [2010, 2030]. -/

inductive RawDate
  | str (s : String)
  | num (n : Int)
  | nullv
  deriving DecidableEq, Repr

def isSepChar (c : Char) : Bool := c = '-' || c = '/'

/-- Trailing part `\d{1,2}` of the date regex: at least one digit (the
regex is not anchored at the end, so one digit suffices). -/
def dayPat : List Char → Bool
  | c :: _ => c.isDigit
  | [] => false

/-- Middle and trailing part (month, separator, day) of the date regex, with the backtracking of
a greedy `\d{1,2}` made explicit. -/
def monthPat : List Char → Bool
  | m1 :: s :: rest =>
      m1.isDigit &&
        (if isSepChar s then dayPat rest
         else if s.isDigit then
           match rest with
           | s2 :: rest2 => isSepChar s2 && dayPat rest2
           | [] => false
         else false)
  | _ => false

/-- The test of rule 2: four digits, separator, 1-2 digits, separator,
1-2 digits (a prefix
match: trailing characters are allowed). -/
def ymdPatMatch (s : String) : Bool :=
  match s.data with
  | a :: b :: c :: d :: rest =>
      a.isDigit && b.isDigit && c.isDigit && d.isDigit &&
        (match rest with
         | s1 :: rest1 => isSepChar s1 && monthPat rest1
         | [] => false)
  | _ => false

def digitsToNat (l : List Char) : Nat :=
  l.foldl (fun acc c => acc * 10 + (c.toNat - 48)) 0

/-- The test `/^\d+$/.test(rawValue)`. -/
def isDigitStr (s : String) : Bool := !s.data.isEmpty && s.data.all Char.isDigit

/-- The test `/^\d{8}$/.test(rawValue)`. -/
def isEightDigits (s : String) : Bool := s.data.length = 8 && s.data.all Char.isDigit

def isLeap (y : Int) : Bool := (y % 4 = 0 && y % 100 ≠ 0) || y % 400 = 0

def daysInMonth (y m : Int) : Int :=
  if m = 2 then (if isLeap y then 29 else 28)
  else if m = 4 || m = 6 || m = 9 || m = 11 then 30 else 31

/-- Days since the Unix epoch of a proleptic-Gregorian civil date
(standard era-based conversion, exact for all inputs used here). -/
def daysFromCivil (y m d : Int) : Int :=
  let y' := if m ≤ 2 then y - 1 else y
  let era := Int.fdiv y' 400
  let yoe := y' - era * 400
  let mp := if m > 2 then m - 3 else m + 9
  let doy := Int.fdiv (153 * mp + 2) 5 + d - 1
  let doe := yoe * 365 + Int.fdiv yoe 4 - Int.fdiv yoe 100 + doy
  era * 146097 + doe - 719468

def msPerDay : Int := 86400000

/-- Civil year of a day count since the Unix epoch (inverse direction of
`daysFromCivil`). -/
def yearOfDays (z : Int) : Int :=
  let z' := z + 719468
  let era := Int.fdiv z' 146097
  let doe := z' - era * 146097
  let yoe := Int.fdiv (doe - Int.fdiv doe 1460 + Int.fdiv doe 36524 - Int.fdiv doe 146096) 365
  let y := yoe + era * 400
  let doy := doe - (365 * yoe + Int.fdiv yoe 4 - Int.fdiv yoe 100)
  let mp := Int.fdiv (5 * doy + 2) 153
  if mp ≥ 10 then y + 1 else y

/-- `new Date(ts).getFullYear()`: the calendar year of a millisecond
timestamp in the runtime's local time zone, whose offset (in ms, assumed
constant) is the parameter `tz`. -/
def localYearOfMs (tz ts : Int) : Int := yearOfDays (Int.fdiv (ts + tz) msPerDay)

/-- The `year >= 2010 && year <= 2030` sanity check of rules 3 and 4. -/
def yearInRange (tz ts : Int) : Bool := 2010 ≤ localYearOfMs tz ts && localYearOfMs tz ts ≤ 2030

/-- The publish-date normalizer of `get_videosdata.ts` lines 412–478.
`jsD` is the JS `new Date(string)` parser used by rule 2 (an external
runtime facility; `none` models an invalid date).  Rule 1's round-trip
validity check `date.getUTCFullYear() === year && ...` is modelled by its
effect: `Date.UTC` normalizes out-of-range components, so the round trip
succeeds exactly for a real calendar date, and years below 100 always fail
the round trip because `Date.UTC` remaps them to 19xx. -/
def parseDate (jsD : String → Option Int) (tz : Int) : RawDate → Option Int
  | .str s =>
    if isEightDigits s then
      let y : Int := (digitsToNat (s.data.take 4) : Int)
      let m : Int := (digitsToNat ((s.data.drop 4).take 2) : Int)
      let d : Int := (digitsToNat ((s.data.drop 6).take 2) : Int)
      if 100 ≤ y && 1 ≤ m && m ≤ 12 && 1 ≤ d && d ≤ daysInMonth y m then
        some (msPerDay * daysFromCivil y m d)
      else none
    else if ymdPatMatch s then
      jsD s
    else if isDigitStr s then
      let n : Int := (digitsToNat s.data : Int)
      let ts := if s.data.length ≤ 10 then n * 1000 else n
      if yearInRange tz ts then some ts else none
    else none
  | .num n =>
      let ts := if n < 10000000000 then n * 1000 else n
      if yearInRange tz ts then some ts else none
  | .nullv => none

/-! ### Chunked batch commits (`get_videosdata.ts` lines 529–568)

Both the insert loop (`addRecords`) and the update loop (`setRecords`)
slice the record list into batches of 500 inside a single `try` block: a
batch whose commit throws aborts the loop (the `catch` only logs), so
batches before the failure are committed and later batches are never
attempted.  The success of batch `i` is an oracle `ok i`. -/

def chunkSize : Nat := 500

def chunksOfFuel (n : Nat) : Nat → List α → List (List α)
  | _, [] => []
  | 0, l => [l]
  | fuel + 1, l => l.take n :: chunksOfFuel n fuel (l.drop n)

/-- The batches produced by `for (let i = 0; i < len; i += batchSize)`. -/
def chunksOf (n : Nat) (l : List α) : List (List α) := chunksOfFuel n l.length l

/-- The commit loop: batch `i` is attempted only if all previous batches
succeeded; the first failure throws out of the loop into the `catch`.
Returns the committed records. -/
def commitLoop (ok : Nat → Bool) : Nat → List (List α) → List α
  | _, [] => []
  | i, c :: cs => if ok i then c ++ commitLoop ok (i + 1) cs else []

/-- The whole chunked commit (insert path lines 529–547, and likewise the
update path lines 549–568, which has the same structure). -/
def chunkedCommit (ok : Nat → Bool) (l : List α) : List α :=
  commitLoop ok 0 (chunksOf chunkSize l)

/-- The transcript batch update of `handleVideoText` (`index.tsx` lines
686–702): one unchunked `setRecords` call; on failure, every record of the
batch is retried individually with `setRecord`, each in its own
`try`/`catch`.  Returns (committed records, records attempted one by
one). -/
def fallbackUpdateCommit (batchOk : Bool) (rowOk : α → Bool) (rows : List α) :
    List α × List α :=
  if rows.isEmpty then ([], [])
  else if batchOk then (rows, [])
  else (rows.filter rowOk, rows)

/-! ### Paginated dedup scan (`get_videosdata.ts` lines 317–380)

`getRecords` is called page by page; a throwing page fetch sets
`hasMore = false` and keeps the records accumulated so far.  Each row's
canonical-id cell is then read with `getCellString`, whose failure is
caught per row.  A page is an `Except` (error = the fetch threw); a row
entry is the record id paired with the outcome of its cell read. -/

def scanPages : List (Except Unit (List α)) → List α
  | [] => []
  | .ok pg :: rest => pg ++ scanPages rest
  | .error _ :: _ => []

def pageIsOk : Except Unit (List α) → Bool
  | .ok _ => true
  | .error _ => false

/-- The dedup-index build over the scanned rows: rows whose cell read
threw are skipped, empty cell strings are skipped (JS truthiness), and
`existingVideoIds.set(cleanVideoId, recordId)` is a prepend (lookup finds
the most recent binding: last write wins). -/
def buildIndex (entries : List (Nat × Except Unit String)) : List (String × Nat) :=
  entries.foldl (fun m e =>
    match e.2 with
    | .error _ => m
    | .ok s => if s = "" then m else (cleanId s, e.1) :: m) []

/-! ### Pipeline reconciliation (`index.tsx` lines 662–705)

After the four pipeline stages, `handleVideoText` walks the
`processingVideos` array: an item whose status is `llm_done`, or
`asr_done` with no LLM sub-task list (`!video.llm_task_id_list`, i.e. the
list is null/undefined — an empty array is truthy in JS and does not
qualify), contributes `video.video_text_arr || video.video_text_ori` to
the batch update provided that text, the record id and the text-field id
are all truthy; every other item increments the failure counter. -/

inductive PStatus
  | pending | asr_posting | asr_polling | asr_done
  | llm_posting | llm_polling | llm_done | completed | failed
  deriving DecidableEq, Repr

structure PVideo where
  recordId : String
  aweme_id : String
  llm_task_id_list : Option (List (String × String))
  video_text_ori : Option String
  video_text_arr : Option String
  status : PStatus
  deriving DecidableEq, Repr

/-- JS `a || b` on an optional string: `a` if it is truthy (non-null and
non-empty), else `b`. -/
def jsOrStr (a : Option String) (b : String) : String :=
  match a with
  | some s => if s = "" then b else s
  | none => b

/-- `video.video_text_arr || video.video_text_ori`, collapsed to the
empty string when both are falsy. -/
def finalTextOf (v : PVideo) : String := jsOrStr v.video_text_arr (jsOrStr v.video_text_ori "")

def statusQualifies (v : PVideo) : Prop :=
  v.status = PStatus.llm_done ∨ (v.status = PStatus.asr_done ∧ v.llm_task_id_list = none)

instance (v : PVideo) : Decidable (statusQualifies v) := by
  unfold statusQualifies; exact inferInstance

/-- The reconciliation loop: returns the `recordsToUpdate` list (record
id, text written to the transcript field) and the failure tally. -/
def reconcile (textFieldId : String) : List PVideo → List (String × String) × Nat
  | [] => ([], 0)
  | v :: vs =>
    let rest := reconcile textFieldId vs
    if statusQualifies v then
      if finalTextOf v ≠ "" ∧ v.recordId ≠ "" ∧ textFieldId ≠ "" then
        ((v.recordId, finalTextOf v) :: rest.1, rest.2)
      else (rest.1, rest.2 + 1)
    else (rest.1, rest.2 + 1)

/-- An item contributes to the final write exactly under this condition
(given a resolved text field). -/
def contributes (v : PVideo) : Prop :=
  statusQualifies v ∧ finalTextOf v ≠ "" ∧ v.recordId ≠ ""

instance (v : PVideo) : Decidable (contributes v) := by
  unfold contributes; exact inferInstance

/-! ### Subscription scheduler (`index.tsx` lines 720–755 and 836–855)

`bloggersSubscribe` loops while the shared flag `subRef.current` is true;
each cycle dispatches the sync+pipeline task without awaiting it and then
waits: a 5000 ms `setInterval` resolves the wait as soon as it observes
the flag false, and a `setTimeout` resolves it after the full period.
`cancelSubscription` just sets the flag to false. -/

def subIntervalMs : Nat := 5000

/-- Time at which the wait promise resolves, given the period and the
time (from the start of the wait) at which cancellation sets the flag to
false (`none` = never during this wait).  The interval callback fires at
5000, 10000, ...; the first tick at or after the cancellation resolves
the promise, unless the full-period timeout fires first. -/
def waitResolveTime (periodMs : Nat) (cancelAt : Option Nat) : Nat :=
  match cancelAt with
  | none => periodMs
  | some t => min periodMs (subIntervalMs * max 1 ((t + subIntervalMs - 1) / subIntervalMs))

/-- Number of loop bodies executed from cycle index `i` with the given
fuel: the `while (subRef.current)` head stops the loop at the first cycle
whose head observes the flag false. -/
def cyclesFrom (flag : Nat → Bool) : Nat → Nat → Nat
  | _, 0 => 0
  | i, fuel + 1 => if flag i then cyclesFrom flag (i + 1) fuel + 1 else 0

def cyclesRun (flag : Nat → Bool) (fuel : Nat) : Nat := cyclesFrom flag 0 fuel

/-! ### Sync engine: field map, record construction, classification and
commit (`get_videosdata.ts` lines 309–568)

A destination cell value is a string or a number.  The field map is the
name-to-id table produced by `ensureFieldsExist`; lookups follow JS
truthiness (an empty-string id counts as missing).  For each incoming
video, `getVideosData` builds a `fields` object keyed by resolved field
ids — skipping the whole record when the canonical-id column is
unresolved (`continue`, line 404) and silently omitting every other
unresolved column — then classifies the record as update or insert by
looking its cleaned `aweme_id` up in the dedup index, and finally commits
inserts and then updates. -/

inductive FieldVal
  | str (s : String)
  | int (n : Int)
  deriving DecidableEq, Repr

/-- First-match association lookup (models a JS object keyed by strings,
and `Map.get` over an insertion structure where `Map.set` prepends, so
the first match is the most recent binding). -/
def getAssoc (k : String) : List (String × β) → Option β
  | [] => none
  | p :: rest => if p.1 = k then some p.2 else getAssoc k rest

/-- `fieldMap[name]` under JS truthiness: an empty-string field id is
falsy and behaves as missing. -/
def getF (fm : List (String × String)) (name : String) : Option String :=
  match getAssoc name fm with
  | some fid => if fid = "" then none else some fid
  | none => none

/-- An `ExternalVideoRecord` as consumed by the engine.  Counter and
duration fields are `Option Int`: `none` models a non-number value
(`typeof x === 'number'` fails), which the code replaces by 0. -/
structure Video where
  nickname : String
  aweme_id : String
  share_url : String
  conv_create_time : RawDate
  desc : String
  digg_count : Option Int
  collect_count : Option Int
  comment_count : Option Int
  duration : Option Int
  play_addr : String
  audio_addr : String
  share_count : Option Int
  video_text_ori : Option String
  video_text_arr : Option String
  deriving DecidableEq, Repr

def numOr0 (n : Option Int) : FieldVal := FieldVal.int (n.getD 0)

/-- `Math.round(duration / 1000)` for an integer millisecond duration:
JS `Math.round` is floor(x + 1/2), so the result is
`⌊(2·d + 1000) / 2000⌋` (floor division). -/
def jsRoundDiv1000 (d : Int) : Int := Int.fdiv (2 * d + 1000) 2000

/-- The value written to the `时长` (duration) column, line 484:
`typeof video.duration === 'number' ? Math.round(video.duration / 1000) : 0`. -/
def durationVal (v : Video) : FieldVal :=
  FieldVal.int (match v.duration with | some d => jsRoundDiv1000 d | none => 0)

/-- `videoWithText.video_text_arr || videoWithText.video_text_ori || ''`
(line 494). -/
def videoText (v : Video) : String := jsOrStr v.video_text_arr (jsOrStr v.video_text_ori "")

/-- The logical columns in the order the code writes them (lines
397–499), each with the value it would receive; the date column's value
is `none` when `parseDate` fails, in which case the field is left unset. -/
def columnSpecs (jsD : String → Option Int) (tz : Int) (v : Video) :
    List (String × Option FieldVal) :=
  [("视频编号", some (FieldVal.str v.aweme_id)),
   ("昵称", some (FieldVal.str v.nickname)),
   ("分享链接", some (FieldVal.str v.share_url)),
   ("发布日期", (parseDate jsD tz v.conv_create_time).map FieldVal.int),
   ("描述", some (FieldVal.str v.desc)),
   ("点赞数", some (numOr0 v.digg_count)),
   ("收藏数", some (numOr0 v.collect_count)),
   ("评论数", some (numOr0 v.comment_count)),
   ("时长", some (durationVal v)),
   ("下载链接", some (FieldVal.str v.play_addr)),
   ("音频链接", some (FieldVal.str v.audio_addr)),
   ("分享数", some (numOr0 v.share_count)),
   ("文案", some (FieldVal.str (videoText v)))]

/-- A column contributes a `fields` entry when its id is resolved and its
value is present. -/
def emitFields (fm : List (String × String)) (specs : List (String × Option FieldVal)) :
    List (String × FieldVal) :=
  specs.filterMap (fun p =>
    match getF fm p.1, p.2 with
    | some f, some val => some (f, val)
    | _, _ => none)

/-- The `fields` object built for one video, or `none` when the record is
skipped because the canonical-id column is unresolved (line 404
`continue`). -/
def buildFields (jsD : String → Option Int) (tz : Int) (fm : List (String × String))
    (v : Video) : Option (List (String × FieldVal)) :=
  match getF fm "视频编号" with
  | none => none
  | some _ => some (emitFields fm (columnSpecs jsD tz v))

/-- A destination row: record id and cells keyed by field id. -/
structure Row where
  recordId : Nat
  cells : List (String × FieldVal)
  deriving DecidableEq, Repr

/-- `getCellString`: the text of a cell (numbers print in decimal, an
empty cell reads as the empty string). -/
def readCellString (cells : List (String × FieldVal)) (fid : String) : String :=
  match getAssoc fid cells with
  | some (FieldVal.str s) => s
  | some (FieldVal.int n) => toString n
  | none => ""

def rowEntry (idF : String) (r : Row) : Nat × Except Unit String :=
  (r.recordId, Except.ok (readCellString r.cells idF))

/-- The dedup index built from a full (failure-free) scan of the table. -/
def tableIndex (idF : String) (rows : List Row) : List (String × Nat) :=
  buildIndex (rows.map (rowEntry idF))

def mapGet (m : List (String × Nat)) (k : String) : Option Nat := getAssoc k m

/-- Whether the row's canonical-id cell reads as a truthy string (only
then is the row indexed). -/
def rowIndexed (idF : String) (r : Row) : Bool :=
  decide (readCellString r.cells idF ≠ "")

/-- The cleaned form of the row's stored canonical id. -/
def rowKey (idF : String) (r : Row) : String := cleanId (readCellString r.cells idF)

/-- The index-relevant footprint of a row. -/
def fpRow (idF : String) (r : Row) : Nat × Bool × String :=
  (r.recordId, rowIndexed idF r, rowKey idF r)

/-- The per-video loop (lines 390–524): build the fields (skipping the
record when `buildFields` is `none`), clean the incoming `aweme_id`, and
classify against the (fixed) dedup index.  Returns
(`recordsToAdd`, `recordsToUpdate`), each in video order. -/
def classify (jsD : String → Option Int) (tz : Int) (fm : List (String × String))
    (idx : List (String × Nat)) :
    List Video → List (List (String × FieldVal)) × List (Nat × List (String × FieldVal))
  | [] => ([], [])
  | v :: vs =>
    let rest := classify jsD tz fm idx vs
    match buildFields jsD tz fm v with
    | none => rest
    | some fs =>
      match mapGet idx (cleanId v.aweme_id) with
      | some rid => (rest.1, (rid, fs) :: rest.2)
      | none => (fs :: rest.1, rest.2)

/-- The destination table: rows plus the next fresh record id. -/
structure TableState where
  rows : List Row
  nextId : Nat
  deriving DecidableEq, Repr

/-- Writing one field of a row: replace the existing cell, else append. -/
def setCell : List (String × FieldVal) → String → FieldVal → List (String × FieldVal)
  | [], f, v => [(f, v)]
  | p :: cs, f, v => if p.1 = f then (f, v) :: cs else p :: setCell cs f v

/-- `setRecords` semantics for one row: the fields of the update are
written over the existing cells in order. -/
def setCells (cells fs : List (String × FieldVal)) : List (String × FieldVal) :=
  fs.foldl (fun c p => setCell c p.1 p.2) cells

def applyAdd (st : TableState) (fs : List (String × FieldVal)) : TableState :=
  { rows := st.rows ++ [⟨st.nextId, fs⟩], nextId := st.nextId + 1 }

/-- `addRecords`: new rows are appended with fresh record ids. -/
def applyAdds : TableState → List (List (String × FieldVal)) → TableState
  | st, [] => st
  | st, fs :: rest => applyAdds (applyAdd st fs) rest

def applyUpdate (rows : List Row) (u : Nat × List (String × FieldVal)) : List Row :=
  rows.map (fun r => if r.recordId = u.1 then ⟨r.recordId, setCells r.cells u.2⟩ else r)

def applyUpdates : List Row → List (Nat × List (String × FieldVal)) → List Row
  | rows, [] => rows
  | rows, u :: us => applyUpdates (applyUpdate rows u) us

/-- The rows created for a list of inserts starting at record id `n`. -/
def newRows (n : Nat) : List (List (String × FieldVal)) → List Row
  | [] => []
  | fs :: rest => ⟨n, fs⟩ :: newRows (n + 1) rest

/-- One full run of the sync engine over one fetched batch against one
table (commit failures aside): build the dedup index (empty when the
canonical-id column is unresolved, line 381), classify every video, then
commit inserts followed by updates. -/
def runSync (jsD : String → Option Int) (tz : Int) (fm : List (String × String))
    (videos : List Video) (st : TableState) : TableState :=
  let idx := match getF fm "视频编号" with
             | some idF => tableIndex idF st.rows
             | none => []
  let cls := classify jsD tz fm idx videos
  let st1 := applyAdds st cls.1
  { st1 with rows := applyUpdates st1.rows cls.2 }

/-- The cumulative effect of a list of updates on a single row (the
row-level view of `applyUpdates`, used to reason about it). -/
def updAll (us : List (Nat × List (String × FieldVal))) (r : Row) : Row :=
  us.foldl (fun r u => if r.recordId = u.1 then ⟨r.recordId, setCells r.cells u.2⟩ else r) r

/-- Table well-formedness: record ids are distinct and below the fresh
counter. -/
def WFState (st : TableState) : Prop :=
  (st.rows.map Row.recordId).Nodup ∧ ∀ r ∈ st.rows, r.recordId < st.nextId

instance (st : TableState) : Decidable (WFState st) := by
  unfold WFState; exact inferInstance

/-- The field map resolves distinct names to distinct ids (stated over
the map's own keys, so it is decidable). -/
def getFInj (fm : List (String × String)) : Prop :=
  ∀ n₁ ∈ fm.map Prod.fst, ∀ n₂ ∈ fm.map Prod.fst,
    n₁ ≠ n₂ → getF fm n₁ = none ∨ getF fm n₁ ≠ getF fm n₂

instance (fm : List (String × String)) : Decidable (getFInj fm) := by
  unfold getFInj; exact inferInstance

/-! ## Theorems -/

/-- Claim C4 counterexample: the 8-digit rule applies no year post-filter.
The raw value "20050101" is accepted by `parseDate` (the date field is
set, to midnight UTC 2005-01-01) even though the resulting year 2005 lies
outside [2010, 2030], so the post-filter is not applied uniformly to all
four rules. -/
theorem dateFilter_eightDigit_cex :
    parseDate (fun _ => none) 0 (RawDate.str "20050101") = some 1104537600000
  ∧ localYearOfMs 0 1104537600000 = 2005
  ∧ ¬ (2010 ≤ (2005 : Int) ∧ (2005 : Int) ≤ 2030) := by
  refine ⟨by decide, by decide, by decide⟩

/-- Claim C4 amended: the [2010, 2030] year post-filter is applied by the
all-digit timestamp-string rule and by the numeric rule, but not by the
8-digit rule nor by the generic date-string rule, whose candidates are
accepted with no year bound (any value the JS date parser returns for a
matching string is used unchecked). -/
theorem dateFilter_applies_to_timestamp_rules_only :
    (∀ (jsD : String → Option Int) (tz n ts : Int),
        parseDate jsD tz (RawDate.num n) = some ts → yearInRange tz ts = true)
  ∧ (∀ (jsD : String → Option Int) (tz : Int) (s : String) (ts : Int),
        isEightDigits s = false → ymdPatMatch s = false →
        parseDate jsD tz (RawDate.str s) = some ts → yearInRange tz ts = true)
  ∧ (∀ (tz : Int) (s : String) (ts : Int),
        isEightDigits s = false → ymdPatMatch s = true →
        parseDate (fun _ => some ts) tz (RawDate.str s) = some ts) := by
  refine ⟨?_, ?_, ?_⟩
  · intro jsD tz n ts h
    simp only [parseDate] at h
    split at h <;> split at h <;> simp_all
  · intro jsD tz s ts h8 hy h
    simp [parseDate, h8, hy] at h
    split at h <;> (obtain ⟨-, hr, hts⟩ := h; exact hts ▸ hr)
  · intro tz s ts h8 hy
    simp [parseDate, h8, hy]

/-- Witness for the amended C4 theorem: the 10-digit timestamp string
"1696492800" is accepted via rule 3 and its year does pass the filter. -/
theorem dateFilter_applies_to_timestamp_rules_only_witness :
    yearInRange 0 1696492800000 = true :=
  dateFilter_applies_to_timestamp_rules_only.2.1 (fun _ => none) 0 "1696492800"
    1696492800000 (by decide) (by decide) (by decide)

/-- Helper: the `while` loop runs at most `j` bodies when the flag is
false at cycle index `j`. -/
theorem cyclesFrom_le (flag : Nat → Bool) (j : Nat) (hflag : flag j = false) :
    ∀ (fuel i : Nat), i ≤ j → cyclesFrom flag i fuel ≤ j - i := by
  intro fuel
  induction fuel with
  | zero => intro i _; simp [cyclesFrom]
  | succ fuel ih =>
    intro i hij
    simp only [cyclesFrom]
    by_cases hf : flag i = true
    · have hij' : i ≠ j := by
        intro h; rw [h, hflag] at hf; cases hf
      have h1 : i + 1 ≤ j := by omega
      have h2 := ih (i + 1) h1
      simp only [hf, if_true]
      omega
    · simp [hf]

/-- Claim C8: when cancellation is requested at time `t` during the wait
phase, the wait promise resolves within one polling sub-interval
(`subIntervalMs` = 5000 ms) of the request and never later than the
period; it resolves strictly before the full period whenever the request
comes more than one sub-interval before the period's end; and a flag
observed false at the loop head stops the loop (no further cycles beyond
index `j` run). -/
theorem scheduler_cancellation (periodMs t : Nat) (flag : Nat → Bool) (j fuel : Nat)
    (hflag : flag j = false) :
    waitResolveTime periodMs (some t) ≤ min periodMs (t + subIntervalMs)
  ∧ (t + subIntervalMs < periodMs → waitResolveTime periodMs (some t) < periodMs)
  ∧ cyclesRun flag fuel ≤ j := by
  refine ⟨?_, ?_, ?_⟩
  · simp only [waitResolveTime, subIntervalMs]
    omega
  · intro hlt
    simp only [waitResolveTime, subIntervalMs] at *
    omega
  · have := cyclesFrom_le flag j hflag fuel 0 (Nat.zero_le j)
    simpa [cyclesRun] using this

/-- Witness for the C8 theorem: a 1-hour period with cancellation 7 s into
the wait, and a flag that goes false at cycle 3. -/
theorem scheduler_cancellation_witness :
    waitResolveTime 3600000 (some 7000) ≤ min 3600000 (7000 + subIntervalMs)
  ∧ (7000 + subIntervalMs < 3600000 → waitResolveTime 3600000 (some 7000) < 3600000)
  ∧ cyclesRun (fun n => decide (n < 3)) 10 ≤ 3 :=
  scheduler_cancellation 3600000 7000 (fun n => decide (n < 3)) 3 10 (by decide)

/-- Helper: closed form of the reconciliation loop (for a truthy text
field id): the update list collects exactly the contributing items, in
order, with the arr-preferred text; every other item is a failure. -/
theorem reconcile_eq (tf : String) (htf : tf ≠ "") (videos : List PVideo) :
    reconcile tf videos
      = ((videos.filter (fun v => decide (contributes v))).map
           (fun v => (v.recordId, finalTextOf v)),
         (videos.filter (fun v => !decide (contributes v))).length) := by
  induction videos with
  | nil => rfl
  | cons v vs ih =>
    simp only [reconcile, ih, List.filter_cons]
    by_cases hq : statusQualifies v
    · by_cases ht : finalTextOf v ≠ "" ∧ v.recordId ≠ "" ∧ tf ≠ ""
      · have hc : contributes v := ⟨hq, ht.1, ht.2.1⟩
        simp [hq, ht, hc]
      · have hc : ¬ contributes v := by
          rintro ⟨-, h1, h2⟩; exact ht ⟨h1, h2, htf⟩
        simp [hq, ht, hc]
    · have hc : ¬ contributes v := fun h => hq h.1
      simp [hq, hc]

/-- Claim C5 counterexample: an item whose status is `llm_done` but which
carries no transcript text (both text fields null) does not contribute to
the final write and is tallied as a failure, refuting "contributes exactly
when its status is llm_done, or asr_done with no LLM sub-task list". -/
theorem reconcile_llmDone_without_text_cex :
    statusQualifies ⟨"rec1", "aid1", none, none, none, PStatus.llm_done⟩
  ∧ reconcile "tf" [⟨"rec1", "aid1", none, none, none, PStatus.llm_done⟩] = ([], 1) := by
  exact ⟨by decide, by decide⟩

/-- Claim C5 amended: an item contributes a text value to the final batch
write exactly when its status is `llm_done` or `asr_done` with no LLM
sub-task list, *and* its preferred text (`video_text_arr` when non-empty,
else `video_text_ori`) is non-empty and its record id is truthy; the
contributed value is the cleaned text when present, the raw text
otherwise; every other item is tallied as a failure.  (The loop is a total
function: no item's failure escapes it.) -/
theorem reconcile_contribution (tf : String) (htf : tf ≠ "") (videos : List PVideo) :
    (reconcile tf videos).1
      = (videos.filter (fun v => decide (contributes v))).map
          (fun v => (v.recordId, finalTextOf v))
  ∧ (reconcile tf videos).2
      = (videos.filter (fun v => !decide (contributes v))).length
  ∧ (∀ v : PVideo, ∀ a, v.video_text_arr = some a → a ≠ "" → finalTextOf v = a)
  ∧ (∀ v : PVideo, v.video_text_arr = none → finalTextOf v = jsOrStr v.video_text_ori "") := by
  refine ⟨(congrArg Prod.fst (reconcile_eq tf htf videos)),
          (congrArg Prod.snd (reconcile_eq tf htf videos)), ?_, ?_⟩
  · intro v a ha hne
    simp [finalTextOf, jsOrStr, ha, hne]
  · intro v ha
    simp [finalTextOf, jsOrStr, ha]

/-- Witness for the amended C5 theorem: one contributing `llm_done` item
with cleaned text and one failed item. -/
theorem reconcile_contribution_witness :
    (reconcile "tf" [⟨"r1", "a1", none, some "raw", some "clean", PStatus.llm_done⟩,
                     ⟨"r2", "a2", none, none, none, PStatus.failed⟩]).1
      = [("r1", "clean")]
  ∧ (reconcile "tf" [⟨"r1", "a1", none, some "raw", some "clean", PStatus.llm_done⟩,
                     ⟨"r2", "a2", none, none, none, PStatus.failed⟩]).2 = 1 := by
  have h := reconcile_contribution "tf" (by decide)
    [⟨"r1", "a1", none, some "raw", some "clean", PStatus.llm_done⟩,
     ⟨"r2", "a2", none, none, none, PStatus.failed⟩]
  exact ⟨h.1.trans (by decide), h.2.1.trans (by decide)⟩

/-- Helper: every batch produced by the chunking loop has at most `n`
records. -/
theorem chunksOfFuel_length_le {α : Type _} (n : Nat) (hn : 0 < n) :
    ∀ (fuel : Nat) (l : List α), l.length ≤ fuel →
      ∀ c ∈ chunksOfFuel n fuel l, c.length ≤ n := by
  intro fuel
  induction fuel with
  | zero =>
    intro l hl c hc
    have : l = [] := List.length_eq_zero.mp (Nat.le_zero.mp hl)
    subst this
    simp [chunksOfFuel] at hc
  | succ fuel ih =>
    intro l hl c hc
    cases l with
    | nil => simp [chunksOfFuel] at hc
    | cons a as =>
      simp only [chunksOfFuel, List.mem_cons] at hc
      rcases hc with rfl | hc
      · simp only [List.length_take]
        exact Nat.min_le_left n _
      · refine ih ((a :: as).drop n) ?_ c hc
        simp only [List.length_drop, List.length_cons]
        simp only [List.length_cons] at hl
        omega

/-- Helper: flattening the first `k` batches gives the first `n * k`
records. -/
theorem flatten_take_chunksOfFuel {α : Type _} (n : Nat) (hn : 0 < n) :
    ∀ (fuel : Nat) (l : List α) (k : Nat), l.length ≤ fuel →
      ((chunksOfFuel n fuel l).take k).flatten = l.take (n * k) := by
  intro fuel
  induction fuel with
  | zero =>
    intro l k hl
    have : l = [] := List.length_eq_zero.mp (Nat.le_zero.mp hl)
    subst this
    simp [chunksOfFuel]
  | succ fuel ih =>
    intro l k hl
    cases l with
    | nil => simp [chunksOfFuel]
    | cons a as =>
      cases k with
      | zero => simp
      | succ k =>
        simp only [chunksOfFuel, List.take_succ_cons, List.flatten_cons]
        rw [ih ((a :: as).drop n) k
          (by simp only [List.length_drop, List.length_cons]
              simp only [List.length_cons] at hl
              omega)]
        rw [Nat.mul_succ, Nat.add_comm, List.take_add]

/-- Helper: the batches flatten back to the whole list. -/
theorem flatten_chunksOfFuel {α : Type _} (n : Nat) (hn : 0 < n) :
    ∀ (fuel : Nat) (l : List α), l.length ≤ fuel →
      (chunksOfFuel n fuel l).flatten = l := by
  intro fuel
  induction fuel with
  | zero =>
    intro l hl
    have : l = [] := List.length_eq_zero.mp (Nat.le_zero.mp hl)
    subst this; rfl
  | succ fuel ih =>
    intro l hl
    cases l with
    | nil => rfl
    | cons a as =>
      simp only [chunksOfFuel, List.flatten_cons]
      rw [ih ((a :: as).drop n)
        (by simp only [List.length_drop, List.length_cons]
            simp only [List.length_cons] at hl
            omega),
        List.take_append_drop]

/-- Helper: the commit loop stops at the first failing batch, having
committed exactly the batches before it. -/
theorem commitLoop_firstFail {α : Type _} (ok : Nat → Bool) :
    ∀ (cs : List (List α)) (i k : Nat), (∀ j, j < k → ok (i + j) = true) →
      ok (i + k) = false → commitLoop ok i cs = (cs.take k).flatten := by
  intro cs
  induction cs with
  | nil => intro i k _ _; simp [commitLoop]
  | cons c rest ih =>
    intro i k hbefore hk
    cases k with
    | zero =>
      simp only [Nat.add_zero] at hk
      simp [commitLoop, hk]
    | succ k =>
      have h0 : ok i = true := by simpa using hbefore 0 (Nat.succ_pos k)
      simp only [commitLoop, h0, if_true, List.take_succ_cons, List.flatten_cons]
      rw [ih (i + 1) k (fun j hj => by
            have := hbefore (j + 1) (by omega)
            simpa [Nat.add_assoc, Nat.add_comm 1 j] using this)
          (by simpa [Nat.add_assoc, Nat.add_comm 1 k] using hk)]

/-- Helper: with no failures the commit loop commits everything. -/
theorem commitLoop_all {α : Type _} (ok : Nat → Bool) (hok : ∀ j, ok j = true) :
    ∀ (cs : List (List α)) (i : Nat), commitLoop ok i cs = cs.flatten := by
  intro cs
  induction cs with
  | nil => intro i; rfl
  | cons c rest ih => intro i; simp [commitLoop, hok i, ih]

set_option maxRecDepth 20000 in
/-- Claim C3 counterexample: committing 1200 insert rows does produce the
batches 500/500/200, but a failure on the second batch aborts the loop:
only the first 500 rows are committed and the third batch is never
attempted, refuting "every remaining chunk is still attempted". -/
theorem insert_chunk2_failure_cex :
    (chunksOf chunkSize (List.replicate 1200 ())).map List.length = [500, 500, 200]
  ∧ chunkedCommit (fun i => decide (i ≠ 1)) (List.replicate 1200 ()) = List.replicate 500 () := by
  exact ⟨by decide, by decide⟩

/-- Claim C3 amended: inserts are committed in order in batches of at most
500 rows; when batch `k` is the first to fail, the rows of batches before
`k` (i.e. the first `500 * k` rows) are committed — no rollback — and the
failing batch and every later batch are not attempted; with no failure all
rows are committed. -/
theorem insert_chunks_amended {α : Type _} (l : List α) (ok : Nat → Bool) (k : Nat)
    (hbefore : ∀ i, i < k → ok i = true) (hk : ok k = false) :
    (∀ c ∈ chunksOf chunkSize l, c.length ≤ chunkSize)
  ∧ chunkedCommit ok l = l.take (chunkSize * k)
  ∧ (∀ ok' : Nat → Bool, (∀ i, ok' i = true) → chunkedCommit ok' l = l) := by
  refine ⟨?_, ?_, ?_⟩
  · exact chunksOfFuel_length_le chunkSize (by decide) l.length l (Nat.le_refl _)
  · rw [chunkedCommit,
      commitLoop_firstFail ok _ 0 k (fun j hj => by simpa using hbefore j hj)
        (by simpa using hk)]
    exact flatten_take_chunksOfFuel chunkSize (by decide) l.length l k (Nat.le_refl _)
  · intro ok' hok'
    rw [chunkedCommit, commitLoop_all ok' hok']
    exact flatten_chunksOfFuel chunkSize (by decide) l.length l (Nat.le_refl _)

/-- Witness for the amended C3 theorem: three rows with a failure on the
very first batch commit nothing. -/
theorem insert_chunks_amended_witness :
    chunkedCommit (fun i => decide (0 < i)) (List.range 3) = (List.range 3).take (chunkSize * 0) :=
  (insert_chunks_amended (List.range 3) (fun i => decide (0 < i)) 0
    (fun i hi => absurd hi (Nat.not_lt_zero i)) (by decide)).2.1

/-- Claim C7 counterexample: in the sync engine's update commit, a failing
batch aborts with no per-row retry — with update rows `[0, 1]` and a
failing batch nothing at all is committed — whereas the claimed one-by-one
fallback (which only the pipeline's transcript write in `handleVideoText`
implements) would still commit the good row `1`. -/
theorem update_no_fallback_cex :
    chunkedCommit (fun _ => false) [(0 : Nat), 1] = []
  ∧ fallbackUpdateCommit false (fun r => decide (r ≠ 0)) [(0 : Nat), 1] = ([1], [0, 1]) := by
  exact ⟨by decide, by decide⟩

/-- Claim C7 amended: only the pipeline's final transcript write
(`handleVideoText`) falls back to one-by-one commits: when its single
unchunked batch fails, every row is retried individually and exactly the
individually-successful rows are committed, so one bad row does not block
the others; the sync engine's chunked update commit, by contrast, stops at
a failing batch with no per-row fallback (a failure on the first batch
commits nothing). -/
theorem update_fallback_amended {α : Type _} (rows : List α) (rowOk : α → Bool)
    (h : rows ≠ []) :
    (fallbackUpdateCommit false rowOk rows).2 = rows
  ∧ (fallbackUpdateCommit false rowOk rows).1 = rows.filter rowOk
  ∧ (fallbackUpdateCommit true rowOk rows).1 = rows
  ∧ (∀ ok : Nat → Bool, ok 0 = false → chunkedCommit ok rows = []) := by
  cases rows with
  | nil => exact absurd rfl h
  | cons a as =>
    refine ⟨by simp [fallbackUpdateCommit], by simp [fallbackUpdateCommit],
            by simp [fallbackUpdateCommit], ?_⟩
    intro ok hok0
    simp [chunkedCommit, chunksOf, chunksOfFuel, commitLoop, hok0]

/-- Witness for the amended C7 theorem at concrete rows `[5, 6]` with row
`6` failing individually. -/
theorem update_fallback_amended_witness :
    (fallbackUpdateCommit false (fun r => decide (r = 5)) [5, 6]).2 = [5, 6]
  ∧ (fallbackUpdateCommit false (fun r => decide (r = 5)) [5, 6]).1
      = [5, 6].filter (fun r => decide (r = 5)) := by
  have h := update_fallback_amended [5, 6] (fun r => decide (r = 5)) (by decide)
  exact ⟨h.1, h.2.1⟩

/-- Claim C9: a page-fetch failure stops pagination but keeps every record
accumulated from the earlier (successful) pages — the pages after the
failure contribute nothing, and nothing already accumulated is discarded;
and a row whose canonical-id cell read throws is skipped without
disturbing the index entries built from the surrounding rows. -/
theorem scanPages_append_error {α : Type _} :
    ∀ (pages : List (Except Unit (List α))), (∀ p ∈ pages, pageIsOk p = true) →
      ∀ rest, scanPages (pages ++ Except.error () :: rest) = scanPages pages := by
  intro pages
  induction pages with
  | nil => intro _ rest; rfl
  | cons p ps ih =>
    intro hok rest
    cases p with
    | ok pg =>
      simp only [List.cons_append, scanPages, List.append_eq]
      rw [ih (fun q hq => hok q (List.mem_cons_of_mem _ hq)) rest]
    | error e =>
      exact absurd (hok _ (List.mem_cons_self _ _)) (by simp [pageIsOk])

theorem dedup_scan_partial (pages rest : List (Except Unit (List (Nat × Except Unit String))))
    (hok : ∀ p ∈ pages, pageIsOk p = true)
    (es₁ es₂ : List (Nat × Except Unit String)) (rid : Nat) :
    scanPages (pages ++ Except.error () :: rest) = scanPages pages
  ∧ buildIndex (es₁ ++ (rid, Except.error ()) :: es₂) = buildIndex (es₁ ++ es₂) := by
  constructor
  · exact scanPages_append_error pages hok rest
  · simp only [buildIndex, List.foldl_append, List.foldl_cons]

/-- Helper: writing a field makes it readable. -/
theorem getAssoc_setCell_self (c : List (String × FieldVal)) (f : String) (v : FieldVal) :
    getAssoc f (setCell c f v) = some v := by
  induction c with
  | nil => simp [setCell, getAssoc]
  | cons p cs ih =>
    by_cases h : p.1 = f
    · simp [setCell, h, getAssoc]
    · simp [setCell, h, getAssoc, ih]

/-- Helper: writing a field leaves other fields unchanged. -/
theorem getAssoc_setCell_ne (c : List (String × FieldVal)) (f g : String) (v : FieldVal)
    (h : g ≠ f) : getAssoc g (setCell c f v) = getAssoc g c := by
  induction c with
  | nil => simp [setCell, getAssoc, Ne.symm h]
  | cons p cs ih =>
    by_cases hp : p.1 = f
    · simp [setCell, getAssoc, hp, Ne.symm h]
    · simp [setCell, getAssoc, hp, ih]

/-- Helper: rewriting a field with the value it already holds is the
identity. -/
theorem setCell_of_getAssoc (c : List (String × FieldVal)) (f : String) (v : FieldVal)
    (h : getAssoc f c = some v) : setCell c f v = c := by
  induction c with
  | nil => simp [getAssoc] at h
  | cons p cs ih =>
    obtain ⟨p1, p2⟩ := p
    by_cases hp : p1 = f
    · simp only [getAssoc] at h
      rw [if_pos hp] at h
      obtain rfl := Option.some.inj h
      subst hp
      simp [setCell]
    · simp only [getAssoc] at h
      rw [if_neg hp] at h
      simp only [setCell]
      rw [if_neg hp, ih h]

/-- Helper: a batch write does not touch fields outside its keys. -/
theorem getAssoc_setCells_not_mem (fs : List (String × FieldVal)) (f : String)
    (h : f ∉ fs.map Prod.fst) :
    ∀ c, getAssoc f (setCells c fs) = getAssoc f c := by
  induction fs with
  | nil => intro c; rfl
  | cons x fs ih =>
    intro c
    simp only [List.map_cons, List.mem_cons, not_or] at h
    have h1 : setCells c (x :: fs) = setCells (setCell c x.1 x.2) fs := rfl
    rw [h1, ih h.2 (setCell c x.1 x.2), getAssoc_setCell_ne _ _ _ _ h.1]

/-- Helper: after a batch write with distinct keys, each written field
reads back its written value. -/
theorem getAssoc_setCells_mem (fs : List (String × FieldVal))
    (hnd : (fs.map Prod.fst).Nodup) (f : String) (v : FieldVal)
    (hmem : (f, v) ∈ fs) : ∀ c, getAssoc f (setCells c fs) = some v := by
  induction fs with
  | nil => cases hmem
  | cons x fs ih =>
    intro c
    simp only [List.map_cons, List.nodup_cons] at hnd
    have h1 : setCells c (x :: fs) = setCells (setCell c x.1 x.2) fs := rfl
    rcases List.mem_cons.mp hmem with heq | hmem'
    · obtain rfl : x = (f, v) := heq.symm
      rw [h1, getAssoc_setCells_not_mem fs f hnd.1, getAssoc_setCell_self]
    · rw [h1, ih hnd.2 hmem']

/-- Helper: re-applying a batch write with distinct keys changes
nothing. -/
theorem setCells_absorb (fs : List (String × FieldVal)) (hnd : (fs.map Prod.fst).Nodup) :
    ∀ c, setCells (setCells c fs) fs = setCells c fs := by
  induction fs with
  | nil => intro c; rfl
  | cons x fs ih =>
    intro c
    simp only [List.map_cons, List.nodup_cons] at hnd
    have hx : getAssoc x.1 (setCells (setCell c x.1 x.2) fs) = some x.2 := by
      rw [getAssoc_setCells_not_mem fs x.1 hnd.1, getAssoc_setCell_self]
    calc setCells (setCells c (x :: fs)) (x :: fs)
        = setCells (setCell (setCells (setCell c x.1 x.2) fs) x.1 x.2) fs := rfl
      _ = setCells (setCells (setCell c x.1 x.2) fs) fs := by
            rw [setCell_of_getAssoc _ _ _ hx]
      _ = setCells (setCell c x.1 x.2) fs := ih hnd.2 _

/-- Helper: batch-writing keys absent from a leading cell leaves the
leading cell in place. -/
theorem setCells_cons_ne (fs : List (String × FieldVal)) (g : String) (w : FieldVal)
    (h : ∀ p ∈ fs, p.1 ≠ g) :
    ∀ c, setCells ((g, w) :: c) fs = (g, w) :: setCells c fs := by
  induction fs with
  | nil => intro c; rfl
  | cons x fs ih =>
    intro c
    have hx : x.1 ≠ g := h x (List.mem_cons_self x fs)
    have h1 : setCell ((g, w) :: c) x.1 x.2 = (g, w) :: setCell c x.1 x.2 := by
      simp only [setCell]
      rw [if_neg (by simpa using Ne.symm hx)]
    have h2 : setCells ((g, w) :: c) (x :: fs) = setCells (setCell ((g, w) :: c) x.1 x.2) fs := rfl
    rw [h2, h1, ih (fun p hp => h p (List.mem_cons_of_mem x hp)) (setCell c x.1 x.2)]
    rfl

/-- Helper: a batch write with distinct keys into an empty row stores the
batch itself. -/
theorem setCells_nil_eq (fs : List (String × FieldVal)) (hnd : (fs.map Prod.fst).Nodup) :
    setCells [] fs = fs := by
  induction fs with
  | nil => rfl
  | cons x fs ih =>
    simp only [List.map_cons, List.nodup_cons] at hnd
    have h1 : setCells ([] : List (String × FieldVal)) (x :: fs)
        = setCells [(x.1, x.2)] fs := rfl
    rw [h1, setCells_cons_ne fs x.1 x.2
      (fun p hp hh => hnd.1 (hh ▸ List.mem_map_of_mem Prod.fst hp)), ih hnd.2]

/-- Helper: the dedup-index lookup over an accumulator prefix. -/
theorem getAssoc_buildIndex_gen (idF k : String) :
    ∀ (rows : List Row) (init : List (String × Nat)),
      getAssoc k (List.foldl (fun m e =>
          match e.2 with
          | Except.error _ => m
          | Except.ok s => if s = "" then m else (cleanId s, e.1) :: m)
        init (rows.map (rowEntry idF)))
      = (match rows.reverse.find? (fun r => rowIndexed idF r && (rowKey idF r == k)) with
         | some r => some r.recordId
         | none => getAssoc k init) := by
  intro rows
  induction rows with
  | nil => intro init; rfl
  | cons r rs ih =>
    intro init
    simp only [List.map_cons, List.foldl_cons, List.reverse_cons]
    rw [ih, List.find?_append]
    cases hfind : rs.reverse.find? (fun r => rowIndexed idF r && (rowKey idF r == k)) with
    | some r' => rfl
    | none =>
      simp only [Option.none_or]
      by_cases hs : readCellString r.cells idF = ""
      · have hpred : (rowIndexed idF r && (rowKey idF r == k)) = false := by
          simp [rowIndexed, hs]
        simp [rowEntry, hs, List.find?, hpred]
      · by_cases hk : cleanId (readCellString r.cells idF) = k
        · have hpred : (rowIndexed idF r && (rowKey idF r == k)) = true := by
            simp [rowIndexed, rowKey, hs, hk]
          simp [rowEntry, hs, List.find?, hpred, getAssoc, hk]
        · have hpred : (rowIndexed idF r && (rowKey idF r == k)) = false := by
            simp [rowIndexed, rowKey, hs, hk]
          simp [rowEntry, hs, List.find?, hpred, getAssoc, hk]

/-- Helper: the dedup index maps a key to the record id of the *last* row
of the table whose non-empty stored canonical id cleans to that key (last
write wins), and to nothing when no such row exists. -/
theorem mapGet_tableIndex (idF : String) (rows : List Row) (k : String) :
    mapGet (tableIndex idF rows) k
      = (rows.reverse.find? (fun r => rowIndexed idF r && (rowKey idF r == k))).map
          Row.recordId := by
  have h := getAssoc_buildIndex_gen idF k rows []
  simp only [tableIndex, buildIndex, mapGet]
  rw [h]
  cases rows.reverse.find? (fun r => rowIndexed idF r && (rowKey idF r == k)) with
  | some r => rfl
  | none => rfl

/-- Helper: a successful index lookup comes from a row of the table with
that record id, an indexed (truthy) id cell, and the looked-up key. -/
theorem mapGet_tableIndex_some (idF : String) (rows : List Row) (k : String) (rid : Nat)
    (h : mapGet (tableIndex idF rows) k = some rid) :
    ∃ r ∈ rows, r.recordId = rid ∧ rowIndexed idF r = true ∧ rowKey idF r = k := by
  rw [mapGet_tableIndex] at h
  cases hf : rows.reverse.find? (fun r => rowIndexed idF r && (rowKey idF r == k)) with
  | none => rw [hf] at h; cases h
  | some r =>
    rw [hf] at h
    obtain rfl := Option.some.inj h
    have hp := List.find?_some hf
    have hm := List.mem_reverse.mp (List.mem_of_find?_eq_some hf)
    simp only [Bool.and_eq_true, beq_iff_eq] at hp
    exact ⟨r, hm, rfl, hp.1, hp.2⟩

/-- Helper: `find?` only looks at the image of a function when its
predicate factors through it. -/
theorem find?_congr_fp {γ : Type _} (f : Row → γ) (q : γ → Bool) :
    ∀ (l₁ l₂ : List Row), l₁.map f = l₂.map f →
      (l₁.find? (fun r => q (f r))).map f = (l₂.find? (fun r => q (f r))).map f := by
  intro l₁
  induction l₁ with
  | nil =>
    intro l₂ h
    cases l₂ with
    | nil => rfl
    | cons b bs => cases h
  | cons a as ih =>
    intro l₂ h
    cases l₂ with
    | nil => cases h
    | cons b bs =>
      simp only [List.map_cons, List.cons.injEq] at h
      by_cases hq : q (f a) = true
      · have ha : List.find? (fun r => q (f r)) (a :: as) = some a := by
          apply List.find?_cons_of_pos; exact hq
        have hb : List.find? (fun r => q (f r)) (b :: bs) = some b := by
          apply List.find?_cons_of_pos; rw [← h.1]; exact hq
        rw [ha, hb]
        simp [h.1]
      · have ha : List.find? (fun r => q (f r)) (a :: as) = List.find? (fun r => q (f r)) as := by
          apply List.find?_cons_of_neg; exact hq
        have hb : List.find? (fun r => q (f r)) (b :: bs) = List.find? (fun r => q (f r)) bs := by
          apply List.find?_cons_of_neg; rw [← h.1]; exact hq
        rw [ha, hb]
        exact ih bs h.2

/-- Helper: index lookups only depend on each row's footprint (record id,
indexed flag, cleaned key). -/
theorem mapGet_tableIndex_congr (idF : String) (rows₁ rows₂ : List Row)
    (h : rows₁.map (fpRow idF) = rows₂.map (fpRow idF)) (k : String) :
    mapGet (tableIndex idF rows₁) k = mapGet (tableIndex idF rows₂) k := by
  rw [mapGet_tableIndex, mapGet_tableIndex]
  have hrev : rows₁.reverse.map (fpRow idF) = rows₂.reverse.map (fpRow idF) := by
    rw [List.map_reverse, List.map_reverse, h]
  have hfind := find?_congr_fp (fpRow idF)
    (fun t => t.2.1 && (t.2.2 == k)) rows₁.reverse rows₂.reverse hrev
  have h2 := congrArg (Option.map (fun t : Nat × Bool × String => t.1)) hfind
  simpa [Option.map_map, Function.comp] using h2

/-- Claim C2: canonical-id matching is whitespace- and case-insensitive:
two id strings index to the same destination row exactly when their
trimmed, lower-cased forms are equal — equal cleaned forms always yield
the same lookup, and (for a table with distinct record ids) two lookups
that hit the same row force the cleaned forms to be equal. -/
theorem canonical_id_match (idF : String) (rows : List Row) (t₁ t₂ : String)
    (hnd : (rows.map Row.recordId).Nodup) :
    (cleanId t₁ = cleanId t₂ →
       mapGet (tableIndex idF rows) (cleanId t₁) = mapGet (tableIndex idF rows) (cleanId t₂))
  ∧ (∀ rid, mapGet (tableIndex idF rows) (cleanId t₁) = some rid →
       mapGet (tableIndex idF rows) (cleanId t₂) = some rid →
       cleanId t₁ = cleanId t₂) := by
  constructor
  · intro h; rw [h]
  · intro rid h₁ h₂
    obtain ⟨r₁, hm₁, hid₁, hi₁, hk₁⟩ := mapGet_tableIndex_some idF rows _ rid h₁
    obtain ⟨r₂, hm₂, hid₂, hi₂, hk₂⟩ := mapGet_tableIndex_some idF rows _ rid h₂
    have hr : r₁ = r₂ :=
      List.inj_on_of_nodup_map hnd hm₁ hm₂ (by rw [hid₁, hid₂])
    rw [← hk₁, ← hk₂, hr]

/-- Witness for the C2 theorem: " ABC123 " and "abc123" clean to the same
key, so both index to the single stored row. -/
theorem canonical_id_match_witness :
    cleanId " ABC123 " = cleanId "abc123"
  ∧ mapGet (tableIndex "fid" [⟨7, [("fid", FieldVal.str " ABC123 ")]⟩]) (cleanId " ABC123 ")
      = mapGet (tableIndex "fid" [⟨7, [("fid", FieldVal.str " ABC123 ")]⟩]) (cleanId "abc123") :=
  ⟨by decide,
   (canonical_id_match "fid" [⟨7, [("fid", FieldVal.str " ABC123 ")]⟩] " ABC123 " "abc123"
     (by decide)).1 (by decide)⟩

/-- Helper: every emitted field id is the resolution of one of the listed
column names. -/
theorem emitFields_keys (fm : List (String × String)) :
    ∀ (specs : List (String × Option FieldVal)), ∀ p ∈ emitFields fm specs,
      ∃ nm ∈ specs.map Prod.fst, getF fm nm = some p.1 := by
  intro specs
  induction specs with
  | nil => intro p hp; cases hp
  | cons x specs ih =>
    intro p hp
    cases hgf : getF fm x.1 with
    | none =>
      have he : emitFields fm (x :: specs) = emitFields fm specs := by
        simp [emitFields, List.filterMap_cons, hgf]
      rw [he] at hp
      obtain ⟨nm, hnm, h⟩ := ih p hp
      exact ⟨nm, List.mem_cons_of_mem _ hnm, h⟩
    | some f =>
      cases hx2 : x.2 with
      | none =>
        have he : emitFields fm (x :: specs) = emitFields fm specs := by
          simp [emitFields, List.filterMap_cons, hgf, hx2]
        rw [he] at hp
        obtain ⟨nm, hnm, h⟩ := ih p hp
        exact ⟨nm, List.mem_cons_of_mem _ hnm, h⟩
      | some val =>
        have he : emitFields fm (x :: specs) = (f, val) :: emitFields fm specs := by
          simp [emitFields, List.filterMap_cons, hgf, hx2]
        rw [he] at hp
        rcases List.mem_cons.mp hp with rfl | hp'
        · exact ⟨x.1, List.mem_cons_self _ _, hgf⟩
        · obtain ⟨nm, hnm, h⟩ := ih p hp'
          exact ⟨nm, List.mem_cons_of_mem _ hnm, h⟩

/-- Claim C6 counterexample: when the canonical-id column (`视频编号`) is
absent from the field map, the record is *not* committed with its
remaining columns — `buildFields` is `none` (the loop's `continue`) and
classification drops the record entirely (no insert, no update), even
though another column (`昵称`) is resolved.  So the silent per-column
degradation does not apply to every required column. -/
theorem missing_idColumn_drops_record_cex :
    buildFields (fun _ => none) 0 [("昵称", "f1")]
      (Video.mk "nick" "A1" "url" RawDate.nullv "d" none none none none "p" "a" none none none)
      = none
  ∧ classify (fun _ => none) 0 [("昵称", "f1")] []
      [Video.mk "nick" "A1" "url" RawDate.nullv "d" none none none none "p" "a" none none none]
      = ([], []) := by
  exact ⟨rfl, rfl⟩

/-- Claim C6 amended: for every column *other than* the canonical-id
column, absence from the field map degrades silently: as long as
`视频编号` resolves, the record's fields are built (the record is never
dropped), every written field id is the resolution of one of the logical
columns (so unresolved columns are simply omitted), and classification
still places every record in exactly one of the insert/update lists; a
record is dropped only when the canonical-id column itself is
unresolved. -/
theorem missing_column_degradation (jsD : String → Option Int) (tz : Int)
    (fm : List (String × String)) (v : Video) (idF : String)
    (hid : getF fm "视频编号" = some idF) :
    (∃ fs, buildFields jsD tz fm v = some fs
        ∧ (idF, FieldVal.str v.aweme_id) ∈ fs
        ∧ ∀ p ∈ fs, ∃ nm ∈ (columnSpecs jsD tz v).map Prod.fst, getF fm nm = some p.1)
  ∧ (∀ (idx : List (String × Nat)) (vs : List Video),
       (classify jsD tz fm idx vs).1.length + (classify jsD tz fm idx vs).2.length
         = vs.length) := by
  constructor
  · refine ⟨emitFields fm (columnSpecs jsD tz v), by simp [buildFields, hid], ?_,
      emitFields_keys fm _⟩
    have he : emitFields fm (columnSpecs jsD tz v)
        = (idF, FieldVal.str v.aweme_id)
            :: emitFields fm ((columnSpecs jsD tz v).drop 1) := by
      simp [columnSpecs, emitFields, List.filterMap_cons, hid]
    rw [he]
    exact List.mem_cons_self _ _
  · intro idx vs
    induction vs with
    | nil => rfl
    | cons w ws ih =>
      have hb : buildFields jsD tz fm w = some (emitFields fm (columnSpecs jsD tz w)) := by
        simp [buildFields, hid]
      simp only [classify, hb]
      cases mapGet idx (cleanId w.aweme_id) with
      | some rid => simp only [List.length_cons]; omega
      | none => simp only [List.length_cons]; omega

/-- Witness for the amended C6 theorem: a field map resolving only the
canonical-id and nickname columns still yields a classified record whose
fields all come from the map. -/
theorem missing_column_degradation_witness :
    (∃ fs, buildFields (fun _ => none) 0 [("视频编号", "fid"), ("昵称", "f1")]
        (Video.mk "nick" "A1" "url" RawDate.nullv "d" none none none none "p" "a" none none none)
        = some fs
      ∧ ("fid", FieldVal.str "A1") ∈ fs
      ∧ ∀ p ∈ fs, ∃ nm ∈ (columnSpecs (fun _ => none) 0
            (Video.mk "nick" "A1" "url" RawDate.nullv "d" none none none none "p" "a" none none none)).map
              Prod.fst,
          getF [("视频编号", "fid"), ("昵称", "f1")] nm = some p.1)
  ∧ (∀ (idx : List (String × Nat)) (vs : List Video),
      (classify (fun _ => none) 0 [("视频编号", "fid"), ("昵称", "f1")] idx vs).1.length
        + (classify (fun _ => none) 0 [("视频编号", "fid"), ("昵称", "f1")] idx vs).2.length
        = vs.length) :=
  missing_column_degradation (fun _ => none) 0 [("视频编号", "fid"), ("昵称", "f1")]
    (Video.mk "nick" "A1" "url" RawDate.nullv "d" none none none none "p" "a" none none none)
    "fid" (by decide)

/-- Helper: looking up the field id of a column whose resolution no
earlier listed column shares returns that column's value. -/
theorem getAssoc_emitFields_split (fm : List (String × String)) :
    ∀ (pre : List (String × Option FieldVal)) (post : List (String × Option FieldVal))
      (nm : String) (val : FieldVal) (f : String),
      getF fm nm = some f →
      (∀ q ∈ pre, getF fm q.1 ≠ some f) →
      getAssoc f (emitFields fm (pre ++ (nm, some val) :: post)) = some val := by
  intro pre
  induction pre with
  | nil =>
    intro post nm val f hf _
    simp only [List.nil_append, emitFields, List.filterMap_cons, hf]
    simp [getAssoc]
  | cons x pre ih =>
    intro post nm val f hf hpre
    have hx : getF fm x.1 ≠ some f := hpre x (List.mem_cons_self _ _)
    have hrest : ∀ q ∈ pre, getF fm q.1 ≠ some f :=
      fun q hq => hpre q (List.mem_cons_of_mem _ hq)
    cases hgf : getF fm x.1 with
    | none =>
      have he : emitFields fm ((x :: pre) ++ (nm, some val) :: post)
          = emitFields fm (pre ++ (nm, some val) :: post) := by
        simp [emitFields, List.filterMap_cons, hgf]
      rw [he]
      exact ih post nm val f hf hrest
    | some g =>
      have hg : g ≠ f := fun h => hx (by rw [hgf, h])
      cases hx2 : x.2 with
      | none =>
        have he : emitFields fm ((x :: pre) ++ (nm, some val) :: post)
            = emitFields fm (pre ++ (nm, some val) :: post) := by
          simp [emitFields, List.filterMap_cons, hgf, hx2]
        rw [he]
        exact ih post nm val f hf hrest
      | some w =>
        have he : emitFields fm ((x :: pre) ++ (nm, some val) :: post)
            = (g, w) :: emitFields fm (pre ++ (nm, some val) :: post) := by
          simp [emitFields, List.filterMap_cons, hgf, hx2]
        rw [he]
        simp only [getAssoc]
        rw [if_neg hg]
        exact ih post nm val f hf hrest

/-- Claim C10: when the duration column (`时长`) resolves to a field id no
other column shares, the value written there is
`Math.round(duration / 1000)` — the upstream millisecond duration
converted to whole seconds, half-up — when the record's duration is a
number, and 0 otherwise.  The last two conjuncts pin the rounding down:
`jsRoundDiv1000` is exact on whole seconds and always within half a
second of `d / 1000`. -/
theorem duration_unit_conversion (jsD : String → Option Int) (tz : Int)
    (fm : List (String × String)) (v : Video) (idF dF : String)
    (hid : getF fm "视频编号" = some idF)
    (hdF : getF fm "时长" = some dF)
    (hdistinct : ∀ nm ∈ (columnSpecs jsD tz v).map Prod.fst,
        nm ≠ "时长" → getF fm nm ≠ some dF) :
    ∃ fs, buildFields jsD tz fm v = some fs
      ∧ getAssoc dF fs = some (FieldVal.int (match v.duration with
          | some d => jsRoundDiv1000 d
          | none => 0))
      ∧ (∀ k : Int, jsRoundDiv1000 (1000 * k) = k)
      ∧ (∀ d : Int, -1000 ≤ 2 * (d - 1000 * jsRoundDiv1000 d)
          ∧ 2 * (d - 1000 * jsRoundDiv1000 d) < 1000) := by
  refine ⟨emitFields fm (columnSpecs jsD tz v), by simp [buildFields, hid], ?_, ?_, ?_⟩
  · have hsplit : columnSpecs jsD tz v
        = [("视频编号", some (FieldVal.str v.aweme_id)),
           ("昵称", some (FieldVal.str v.nickname)),
           ("分享链接", some (FieldVal.str v.share_url)),
           ("发布日期", (parseDate jsD tz v.conv_create_time).map FieldVal.int),
           ("描述", some (FieldVal.str v.desc)),
           ("点赞数", some (numOr0 v.digg_count)),
           ("收藏数", some (numOr0 v.collect_count)),
           ("评论数", some (numOr0 v.comment_count))]
          ++ ("时长", some (durationVal v))
          :: [("下载链接", some (FieldVal.str v.play_addr)),
              ("音频链接", some (FieldVal.str v.audio_addr)),
              ("分享数", some (numOr0 v.share_count)),
              ("文案", some (FieldVal.str (videoText v)))] := rfl
    rw [hsplit]
    rw [getAssoc_emitFields_split fm _ _ "时长" (durationVal v) dF hdF ?_]
    · rfl
    · intro q hq
      have hnm : q.1 ∈ (columnSpecs jsD tz v).map Prod.fst := by
        rw [hsplit, List.map_append]
        exact List.mem_append_left _ (List.mem_map_of_mem Prod.fst hq)
      have hne : q.1 ≠ "时长" := by
        simp only [List.mem_cons, List.not_mem_nil, or_false] at hq
        rcases hq with rfl | rfl | rfl | rfl | rfl | rfl | rfl | rfl <;> simp
      exact hdistinct q.1 hnm hne
  · intro k
    show Int.fdiv (2 * (1000 * k) + 1000) 2000 = k
    rw [Int.fdiv_eq_ediv _ (by omega)]
    omega
  · intro d
    show -1000 ≤ 2 * (d - 1000 * Int.fdiv (2 * d + 1000) 2000)
      ∧ 2 * (d - 1000 * Int.fdiv (2 * d + 1000) 2000) < 1000
    rw [Int.fdiv_eq_ediv _ (by omega)]
    omega

/-- Witness for the C10 theorem: a 1500 ms duration is written as 2
seconds (half-up rounding). -/
theorem duration_unit_conversion_witness :
    ∃ fs, buildFields (fun _ => none) 0 [("视频编号", "fid"), ("时长", "fdur")]
        (Video.mk "n" "A1" "u" RawDate.nullv "d" none none none (some 1500) "p" "a" none none none)
        = some fs
      ∧ getAssoc "fdur" fs = some (FieldVal.int (match (some (1500 : Int)) with
          | some d => jsRoundDiv1000 d
          | none => 0))
      ∧ (∀ k : Int, jsRoundDiv1000 (1000 * k) = k)
      ∧ (∀ d : Int, -1000 ≤ 2 * (d - 1000 * jsRoundDiv1000 d)
          ∧ 2 * (d - 1000 * jsRoundDiv1000 d) < 1000) :=
  duration_unit_conversion (fun _ => none) 0 [("视频编号", "fid"), ("时长", "fdur")]
    (Video.mk "n" "A1" "u" RawDate.nullv "d" none none none (some 1500) "p" "a" none none none)
    "fid" "fdur" (by decide) (by decide) (by decide)

/-- Witness for the C9 theorem: one good page before the failing fetch,
and an unreadable row between two good rows. -/
theorem dedup_scan_partial_witness :
    scanPages (([Except.ok [(1, Except.ok "A")]] : List (Except Unit (List (Nat × Except Unit String))))
        ++ Except.error () :: [Except.ok [(2, Except.ok "B")]])
      = scanPages [Except.ok [(1, Except.ok "A")]]
  ∧ buildIndex (([(1, Except.ok "A")] : List (Nat × Except Unit String))
        ++ (9, Except.error ()) :: [(2, Except.ok "B")])
      = buildIndex ([(1, Except.ok "A")] ++ [(2, Except.ok "B")]) :=
  dedup_scan_partial [Except.ok [(1, Except.ok "A")]] [Except.ok [(2, Except.ok "B")]]
    (by decide) [(1, Except.ok "A")] [(2, Except.ok "B")] 9

/-- Helper: a successful association lookup means the key is present. -/
theorem getAssoc_some_mem {β : Type _} (k : String) :
    ∀ (l : List (String × β)) (v : β), getAssoc k l = some v → k ∈ l.map Prod.fst := by
  intro l
  induction l with
  | nil => intro v h; cases h
  | cons p rest ih =>
    intro v h
    simp only [getAssoc] at h
    by_cases hp : p.1 = k
    · simp [hp]
    · rw [if_neg hp] at h
      exact List.mem_cons_of_mem _ (ih v h)

/-- Helper: a resolved column name is a key of the field map. -/
theorem getF_some_mem (fm : List (String × String)) (n f : String)
    (h : getF fm n = some f) : n ∈ fm.map Prod.fst := by
  simp only [getF] at h
  cases hg : getAssoc n fm with
  | none => rw [hg] at h; cases h
  | some fid => exact getAssoc_some_mem n fm fid hg

/-- Helper: under `getFInj`, two names resolving to the same id are
equal. -/
theorem getFInj_eq (fm : List (String × String)) (hinj : getFInj fm) (n₁ n₂ f : String)
    (h₁ : getF fm n₁ = some f) (h₂ : getF fm n₂ = some f) : n₁ = n₂ := by
  by_contra hne
  rcases hinj n₁ (getF_some_mem fm n₁ f h₁) n₂ (getF_some_mem fm n₂ f h₂) hne with h | h
  · rw [h₁] at h; cases h
  · rw [h₁, h₂] at h; exact h rfl

/-- Helper: with an injective field map and distinct column names, the
built fields have distinct field ids. -/
theorem emitFields_keys_nodup (fm : List (String × String)) (hinj : getFInj fm) :
    ∀ specs : List (String × Option FieldVal), (specs.map Prod.fst).Nodup →
      ((emitFields fm specs).map Prod.fst).Nodup := by
  intro specs
  induction specs with
  | nil => intro _; simp [emitFields]
  | cons x specs ih =>
    intro hnd
    simp only [List.map_cons, List.nodup_cons] at hnd
    cases hgf : getF fm x.1 with
    | none =>
      rw [show emitFields fm (x :: specs) = emitFields fm specs from by
        simp [emitFields, List.filterMap_cons, hgf]]
      exact ih hnd.2
    | some f =>
      cases hx2 : x.2 with
      | none =>
        rw [show emitFields fm (x :: specs) = emitFields fm specs from by
          simp [emitFields, List.filterMap_cons, hgf, hx2]]
        exact ih hnd.2
      | some val =>
        rw [show emitFields fm (x :: specs) = (f, val) :: emitFields fm specs from by
          simp [emitFields, List.filterMap_cons, hgf, hx2]]
        simp only [List.map_cons, List.nodup_cons]
        refine ⟨?_, ih hnd.2⟩
        intro hfmem
        obtain ⟨p, hp, hpf⟩ := List.mem_map.mp hfmem
        obtain ⟨nm, hnm, hgf'⟩ := emitFields_keys fm specs p hp
        have heq : nm = x.1 := getFInj_eq fm hinj nm x.1 f (hpf ▸ hgf') hgf
        exact hnd.1 (heq ▸ hnm)

/-- Helper: with the canonical-id column resolved, the built fields start
with the canonical-id entry. -/
theorem emitFields_head (jsD : String → Option Int) (tz : Int)
    (fm : List (String × String)) (v : Video) (idF : String)
    (hid : getF fm "视频编号" = some idF) :
    emitFields fm (columnSpecs jsD tz v)
      = (idF, FieldVal.str v.aweme_id)
          :: emitFields fm ((columnSpecs jsD tz v).drop 1) := by
  simp [columnSpecs, emitFields, List.filterMap_cons, hid]

/-- Helper: reading the canonical-id column of a freshly built row gives
the incoming `aweme_id`. -/
theorem readCell_emitFields (jsD : String → Option Int) (tz : Int)
    (fm : List (String × String)) (v : Video) (idF : String)
    (hid : getF fm "视频编号" = some idF) :
    readCellString (emitFields fm (columnSpecs jsD tz v)) idF = v.aweme_id := by
  rw [emitFields_head jsD tz fm v idF hid]
  simp [readCellString, getAssoc]

/-- Helper: the thirteen logical column names are distinct. -/
theorem columnSpecs_names_nodup (jsD : String → Option Int) (tz : Int) (v : Video) :
    ((columnSpecs jsD tz v).map Prod.fst).Nodup := by
  simp only [columnSpecs, List.map_cons, List.map_nil]
  decide

/-- Helper: re-applying an already-applied batch write with distinct keys
to an empty base is the identity. -/
theorem setCells_self (fs : List (String × FieldVal)) (hnd : (fs.map Prod.fst).Nodup) :
    setCells fs fs = fs := by
  have h1 := setCells_nil_eq fs hnd
  have h2 := setCells_absorb fs hnd []
  rw [h1] at h2
  exact h2

/-- Helper: `applyAdds` appends the new rows with consecutive fresh
ids. -/
theorem applyAdds_eq : ∀ (adds : List (List (String × FieldVal))) (st : TableState),
    applyAdds st adds
      = ⟨st.rows ++ newRows st.nextId adds, st.nextId + adds.length⟩ := by
  intro adds
  induction adds with
  | nil => intro st; simp [applyAdds, newRows]
  | cons fs rest ih =>
    intro st
    rw [show applyAdds st (fs :: rest) = applyAdds (applyAdd st fs) rest from rfl, ih]
    simp only [applyAdd, newRows, TableState.mk.injEq, List.append_assoc,
      List.singleton_append, List.length_cons]
    refine ⟨by simp, by omega⟩

/-- Helper: the appended rows carry the ids `n, n+1, ...`. -/
theorem newRows_ids : ∀ (adds : List (List (String × FieldVal))) (n : Nat),
    (newRows n adds).map Row.recordId = List.range' n adds.length := by
  intro adds
  induction adds with
  | nil => intro n; rfl
  | cons fs rest ih =>
    intro n
    simp [newRows, ih, List.range'_succ]

/-- Helper: a new row's cells come from the insert list and its id is at
least the starting id. -/
theorem newRows_mem : ∀ (adds : List (List (String × FieldVal))) (n : Nat) (r : Row),
    r ∈ newRows n adds → r.cells ∈ adds ∧ n ≤ r.recordId := by
  intro adds
  induction adds with
  | nil => intro n r h; cases h
  | cons fs rest ih =>
    intro n r h
    rcases List.mem_cons.mp h with rfl | h'
    · exact ⟨List.mem_cons_self _ _, Nat.le_refl n⟩
    · obtain ⟨h1, h2⟩ := ih (n + 1) r h'
      exact ⟨List.mem_cons_of_mem _ h1, by omega⟩

/-- Helper: every insert produces a new row holding exactly its fields. -/
theorem newRows_exists : ∀ (adds : List (List (String × FieldVal))) (n : Nat)
    (fs : List (String × FieldVal)), fs ∈ adds →
    ∃ r ∈ newRows n adds, r.cells = fs := by
  intro adds
  induction adds with
  | nil => intro n fs h; cases h
  | cons fs0 rest ih =>
    intro n fs h
    rcases List.mem_cons.mp h with rfl | h'
    · exact ⟨⟨n, fs⟩, List.mem_cons_self _ _, rfl⟩
    · obtain ⟨r, hr, hc⟩ := ih (n + 1) fs h'
      exact ⟨r, List.mem_cons_of_mem _ hr, hc⟩

/-- Helper: `applyUpdates` is the row-wise map of `updAll`. -/
theorem applyUpdates_map : ∀ (us : List (Nat × List (String × FieldVal))) (rows : List Row),
    applyUpdates rows us = rows.map (updAll us) := by
  intro us
  induction us with
  | nil =>
    intro rows
    show rows = rows.map (updAll [])
    conv_lhs => rw [← List.map_id rows]
    apply List.map_congr_left
    intro r _
    rfl
  | cons u us ih =>
    intro rows
    show applyUpdates (applyUpdate rows u) us = _
    rw [ih, applyUpdate, List.map_map]
    rfl

/-- Helper: updates never change a row's record id. -/
theorem updAll_recordId : ∀ (us : List (Nat × List (String × FieldVal))) (r : Row),
    (updAll us r).recordId = r.recordId := by
  intro us
  induction us with
  | nil => intro r; rfl
  | cons u us ih =>
    intro r
    show (updAll us (if r.recordId = u.1 then ⟨r.recordId, setCells r.cells u.2⟩ else r)).recordId
      = r.recordId
    by_cases h : r.recordId = u.1
    · rw [if_pos h, ih]
    · rw [if_neg h, ih]

/-- Helper: updates targeting other rows leave a row untouched. -/
theorem updAll_no_target : ∀ (us : List (Nat × List (String × FieldVal))) (r : Row),
    (∀ u ∈ us, u.1 ≠ r.recordId) → updAll us r = r := by
  intro us
  induction us with
  | nil => intro r _; rfl
  | cons u us ih =>
    intro r h
    show updAll us (if r.recordId = u.1 then ⟨r.recordId, setCells r.cells u.2⟩ else r) = r
    rw [if_neg (fun hc => h u (List.mem_cons_self _ _) hc.symm)]
    exact ih r (fun u' hu' => h u' (List.mem_cons_of_mem _ hu'))

/-- Helper: when exactly one update in the list targets a row, the row
ends with that update's fields written over its cells. -/
theorem updAll_split (l₁ l₂ : List (Nat × List (String × FieldVal))) (rid : Nat)
    (fs : List (String × FieldVal)) (r : Row) (hr : r.recordId = rid)
    (h₁ : ∀ u ∈ l₁, u.1 ≠ rid) (h₂ : ∀ u ∈ l₂, u.1 ≠ rid) :
    updAll (l₁ ++ (rid, fs) :: l₂) r = ⟨rid, setCells r.cells fs⟩ := by
  have happ : ∀ (a b : List (Nat × List (String × FieldVal))) (r : Row),
      updAll (a ++ b) r = updAll b (updAll a r) := by
    intro a b r; simp [updAll, List.foldl_append]
  rw [happ, updAll_no_target l₁ r (fun u hu => by rw [hr]; exact h₁ u hu)]
  show updAll l₂ (if r.recordId = rid then ⟨r.recordId, setCells r.cells fs⟩ else r) = _
  rw [if_pos hr]
  rw [updAll_no_target l₂ ⟨r.recordId, setCells r.cells fs⟩
    (fun u hu => by rw [hr] at *; exact h₂ u hu)]
  rw [hr]

/-- Helper: updates preserve the list of record ids. -/
theorem applyUpdates_ids (us : List (Nat × List (String × FieldVal))) (rows : List Row) :
    (applyUpdates rows us).map Row.recordId = rows.map Row.recordId := by
  rw [applyUpdates_map, List.map_map]
  apply List.map_congr_left
  intro r _
  exact updAll_recordId us r

/-- Helper: updates whose targets all avoid a trailing block leave that
block untouched. -/
theorem applyUpdates_append (us : List (Nat × List (String × FieldVal))) :
    ∀ (a b : List Row), (∀ u ∈ us, ∀ r ∈ b, r.recordId ≠ u.1) →
      applyUpdates (a ++ b) us = applyUpdates a us ++ b := by
  induction us with
  | nil => intro a b _; rfl
  | cons u us ih =>
    intro a b h
    show applyUpdates (applyUpdate (a ++ b) u) us = applyUpdates (applyUpdate a u) us ++ b
    have hsplit : applyUpdate (a ++ b) u = applyUpdate a u ++ b := by
      rw [applyUpdate, applyUpdate, List.map_append]
      congr 1
      conv_rhs => rw [← List.map_id b]
      apply List.map_congr_left
      intro r hr
      rw [if_neg (h u (List.mem_cons_self _ _) r hr)]
      rfl
    rw [hsplit]
    apply ih
    intro u' hu' r hr
    exact h u' (List.mem_cons_of_mem _ hu') r hr

/-- Helper: applying updates whose targets are (footprint-wise) indexed
rows keyed by the cleaned id they write back preserves every row's
footprint. -/
theorem applyUpdates_fp (idF : String) :
    ∀ (us : List (Nat × List (String × FieldVal))) (rows rows₀ : List Row),
      rows.map (fpRow idF) = rows₀.map (fpRow idF) →
      (rows₀.map Row.recordId).Nodup →
      (∀ u ∈ us, ∃ a : String, a ≠ ""
          ∧ (idF, FieldVal.str a) ∈ u.2 ∧ (u.2.map Prod.fst).Nodup
          ∧ ∃ r₀ ∈ rows₀, r₀.recordId = u.1 ∧ rowIndexed idF r₀ = true
              ∧ rowKey idF r₀ = cleanId a) →
      (applyUpdates rows us).map (fpRow idF) = rows₀.map (fpRow idF) := by
  intro us
  induction us with
  | nil => intro rows rows₀ h _ _; exact h
  | cons u us ih =>
    intro rows rows₀ h hnd hus
    have hstep : (applyUpdate rows u).map (fpRow idF) = rows.map (fpRow idF) := by
      rw [applyUpdate, List.map_map]
      apply List.map_congr_left
      intro r hr
      show fpRow idF (if r.recordId = u.1 then ⟨r.recordId, setCells r.cells u.2⟩ else r)
        = fpRow idF r
      by_cases hrid : r.recordId = u.1
      · obtain ⟨a, ha, hmem, hkeys, r₀, hr₀, hr₀id, hr₀ind, hr₀key⟩ :=
          hus u (List.mem_cons_self _ _)
        have hfpmem : fpRow idF r ∈ rows₀.map (fpRow idF) :=
          h ▸ List.mem_map_of_mem _ hr
        obtain ⟨r', hr', hfpr'⟩ := List.mem_map.mp hfpmem
        have hid' : r'.recordId = u.1 := by
          have h1 : (fpRow idF r').1 = (fpRow idF r).1 := by rw [hfpr']
          simpa [fpRow, hrid] using h1
        have hre : r' = r₀ :=
          List.inj_on_of_nodup_map hnd hr' hr₀ (by rw [hid', hr₀id])
        subst hre
        have hind : rowIndexed idF r = true := by
          have h1 : (fpRow idF r').2.1 = (fpRow idF r).2.1 := by rw [hfpr']
          simp only [fpRow] at h1
          rw [← h1, hr₀ind]
        have hkey : rowKey idF r = cleanId a := by
          have h1 : (fpRow idF r').2.2 = (fpRow idF r).2.2 := by rw [hfpr']
          simp only [fpRow] at h1
          rw [← h1, hr₀key]
        rw [if_pos hrid]
        have hread : readCellString (setCells r.cells u.2) idF = a := by
          simp only [readCellString,
            getAssoc_setCells_mem u.2 hkeys idF (FieldVal.str a) hmem r.cells]
        have h2 : readCellString r.cells idF ≠ "" := by
          simpa [rowIndexed] using hind
        have h3 : cleanId (readCellString r.cells idF) = cleanId a := by
          simpa [rowKey] using hkey
        simp [fpRow, rowIndexed, rowKey, hread, ha, h2, h3]
      · rw [if_neg hrid]
    show (applyUpdates (applyUpdate rows u) us).map (fpRow idF) = _
    exact ih _ rows₀ (hstep.trans h) hnd (fun u' hu' => hus u' (List.mem_cons_of_mem _ hu'))

/-- Helper: the dedup index of concatenated rows prefers the later
block (last write wins). -/
theorem mapGet_tableIndex_append (idF : String) (a b : List Row) (k : String) :
    mapGet (tableIndex idF (a ++ b)) k
      = (match mapGet (tableIndex idF b) k with
         | some rid => some rid
         | none => mapGet (tableIndex idF a) k) := by
  rw [mapGet_tableIndex, mapGet_tableIndex, mapGet_tableIndex,
    List.reverse_append, List.find?_append]
  cases hb : b.reverse.find? (fun r => rowIndexed idF r && (rowKey idF r == k)) with
  | some r => simp [Option.or]
  | none => simp [Option.or]

/-- Helper: a row with an indexed cell of the right key guarantees a
successful lookup. -/
theorem mapGet_tableIndex_isSome (idF : String) (rows : List Row) (k : String)
    (h : ∃ r ∈ rows, rowIndexed idF r = true ∧ rowKey idF r = k) :
    ∃ rid, mapGet (tableIndex idF rows) k = some rid := by
  rw [mapGet_tableIndex]
  obtain ⟨r, hr, hi, hk⟩ := h
  have hex : ∃ x, x ∈ rows.reverse ∧ (rowIndexed idF x && (rowKey idF x == k)) = true :=
    ⟨r, List.mem_reverse.mpr hr, by simp [hi, hk]⟩
  have hsome := List.find?_isSome.mpr hex
  cases hfind : rows.reverse.find? (fun r => rowIndexed idF r && (rowKey idF r == k)) with
  | none => rw [hfind] at hsome; cases hsome
  | some r' => exact ⟨r'.recordId, by simp⟩

/-- Helper: every entry of `recordsToUpdate` comes from a video whose
cleaned id the index maps to that entry's record id. -/
theorem classify_updates_mem (jsD : String → Option Int) (tz : Int)
    (fm : List (String × String)) (idx : List (String × Nat)) :
    ∀ (videos : List Video), ∀ u ∈ (classify jsD tz fm idx videos).2,
      ∃ v ∈ videos, buildFields jsD tz fm v = some u.2
        ∧ mapGet idx (cleanId v.aweme_id) = some u.1 := by
  intro videos
  induction videos with
  | nil => intro u hu; cases hu
  | cons v vs ih =>
    intro u hu
    simp only [classify] at hu
    cases hb : buildFields jsD tz fm v with
    | none =>
      rw [hb] at hu
      obtain ⟨w, hw, h⟩ := ih u hu
      exact ⟨w, List.mem_cons_of_mem _ hw, h⟩
    | some fs =>
      rw [hb] at hu
      cases hm : mapGet idx (cleanId v.aweme_id) with
      | some rid =>
        rw [hm] at hu
        rcases List.mem_cons.mp hu with rfl | hu'
        · exact ⟨v, List.mem_cons_self _ _, hb, hm⟩
        · obtain ⟨w, hw, h⟩ := ih u hu'
          exact ⟨w, List.mem_cons_of_mem _ hw, h⟩
      | none =>
        rw [hm] at hu
        obtain ⟨w, hw, h⟩ := ih u hu
        exact ⟨w, List.mem_cons_of_mem _ hw, h⟩

/-- Helper: every entry of `recordsToAdd` comes from a video whose
cleaned id the index does not know. -/
theorem classify_adds_mem (jsD : String → Option Int) (tz : Int)
    (fm : List (String × String)) (idx : List (String × Nat)) :
    ∀ (videos : List Video), ∀ fs ∈ (classify jsD tz fm idx videos).1,
      ∃ v ∈ videos, buildFields jsD tz fm v = some fs
        ∧ mapGet idx (cleanId v.aweme_id) = none := by
  intro videos
  induction videos with
  | nil => intro fs hfs; cases hfs
  | cons v vs ih =>
    intro fs hfs
    simp only [classify] at hfs
    cases hb : buildFields jsD tz fm v with
    | none =>
      rw [hb] at hfs
      obtain ⟨w, hw, h⟩ := ih fs hfs
      exact ⟨w, List.mem_cons_of_mem _ hw, h⟩
    | some fs0 =>
      rw [hb] at hfs
      cases hm : mapGet idx (cleanId v.aweme_id) with
      | some rid =>
        rw [hm] at hfs
        obtain ⟨w, hw, h⟩ := ih fs hfs
        exact ⟨w, List.mem_cons_of_mem _ hw, h⟩
      | none =>
        rw [hm] at hfs
        rcases List.mem_cons.mp hfs with rfl | hfs'
        · exact ⟨v, List.mem_cons_self _ _, hb, hm⟩
        · obtain ⟨w, hw, h⟩ := ih fs hfs'
          exact ⟨w, List.mem_cons_of_mem _ hw, h⟩

/-- Helper: an unmatched video's fields do land in `recordsToAdd`. -/
theorem classify_adds_of (jsD : String → Option Int) (tz : Int)
    (fm : List (String × String)) (idx : List (String × Nat)) :
    ∀ (videos : List Video) (v : Video), v ∈ videos →
      ∀ fs, buildFields jsD tz fm v = some fs →
      mapGet idx (cleanId v.aweme_id) = none →
      fs ∈ (classify jsD tz fm idx videos).1 := by
  intro videos
  induction videos with
  | nil => intro v hv; cases hv
  | cons w ws ih =>
    intro v hv fs hb hm
    rcases List.mem_cons.mp hv with rfl | hv'
    · simp only [classify, hb, hm]
      exact List.mem_cons_self _ _
    · have hmem := ih v hv' fs hb hm
      simp only [classify]
      cases hbw : buildFields jsD tz fm w with
      | none => exact hmem
      | some fsw =>
        cases hmw : mapGet idx (cleanId w.aweme_id) with
        | some rid => exact hmem
        | none => exact List.mem_cons_of_mem _ hmem

/-- Helper: when every video's cleaned id is already indexed, no inserts
are produced. -/
theorem classify_adds_nil (jsD : String → Option Int) (tz : Int)
    (fm : List (String × String)) (idx : List (String × Nat)) :
    ∀ (videos : List Video),
      (∀ v ∈ videos, ∃ rid, mapGet idx (cleanId v.aweme_id) = some rid) →
      (classify jsD tz fm idx videos).1 = [] := by
  intro videos
  induction videos with
  | nil => intro _; rfl
  | cons v vs ih =>
    intro h
    obtain ⟨rid, hrid⟩ := h v (List.mem_cons_self _ _)
    simp only [classify, hrid]
    cases hb : buildFields jsD tz fm v with
    | none => exact ih (fun w hw => h w (List.mem_cons_of_mem _ hw))
    | some fs => exact ih (fun w hw => h w (List.mem_cons_of_mem _ hw))

/-- Helper: the video that matched a given row is the unique one
targeting it, so `recordsToUpdate` splits around its entry. -/
theorem classify_update_split (jsD : String → Option Int) (tz : Int)
    (fm : List (String × String)) (idx : List (String × Nat)) :
    ∀ (videos : List Video) (v : Video) (rid : Nat),
      v ∈ videos →
      (videos.map (fun w => cleanId w.aweme_id)).Nodup →
      (∀ w, buildFields jsD tz fm w = some (emitFields fm (columnSpecs jsD tz w))) →
      mapGet idx (cleanId v.aweme_id) = some rid →
      (∀ w ∈ videos, mapGet idx (cleanId w.aweme_id) = some rid → w = v) →
      ∃ l₁ l₂, (classify jsD tz fm idx videos).2
          = l₁ ++ (rid, emitFields fm (columnSpecs jsD tz v)) :: l₂
        ∧ (∀ u ∈ l₁, u.1 ≠ rid) ∧ (∀ u ∈ l₂, u.1 ≠ rid) := by
  intro videos
  induction videos with
  | nil => intro v rid hv; cases hv
  | cons w ws ih =>
    intro v rid hv hclean hbf hmap huniq
    simp only [List.map_cons, List.nodup_cons] at hclean
    by_cases hwv : w = v
    · subst hwv
      refine ⟨[], (classify jsD tz fm idx ws).2, ?_, ?_, ?_⟩
      · simp only [classify, hbf w, hmap, List.nil_append]
      · intro u hu; cases hu
      · intro u hu hur
        obtain ⟨w', hw', hb', hm'⟩ := classify_updates_mem jsD tz fm idx ws u hu
        have : w' = w := huniq w' (List.mem_cons_of_mem _ hw') (hur ▸ hm')
        subst this
        exact hclean.1 (List.mem_map_of_mem (fun x => cleanId x.aweme_id) hw')
    · have hv' : v ∈ ws := by
        rcases List.mem_cons.mp hv with rfl | h
        · exact absurd rfl hwv
        · exact h
      have huniq' : ∀ w' ∈ ws, mapGet idx (cleanId w'.aweme_id) = some rid → w' = v :=
        fun w' hw' hm' => huniq w' (List.mem_cons_of_mem _ hw') hm'
      obtain ⟨l₁, l₂, heq, h₁, h₂⟩ := ih v rid hv' hclean.2 hbf hmap huniq'
      cases hmw : mapGet idx (cleanId w.aweme_id) with
      | some ridw =>
        have hrne : ridw ≠ rid := by
          intro hcontra
          exact hwv (huniq w (List.mem_cons_self _ _) (hcontra ▸ hmw))
        refine ⟨(ridw, emitFields fm (columnSpecs jsD tz w)) :: l₁, l₂, ?_, ?_, h₂⟩
        · simp only [classify, hbf w, hmw, heq, List.cons_append]
        · intro u hu
          rcases List.mem_cons.mp hu with rfl | hu'
          · exact hrne
          · exact h₁ u hu'
      | none =>
        refine ⟨l₁, l₂, ?_, h₁, h₂⟩
        simp only [classify, hbf w, hmw, heq]

/-- Claim C1: the sync engine is idempotent.  After one run over a batch
of videos (with resolved canonical-id column, an injective field map,
non-empty ids, and pairwise-distinct cleaned ids) against a well-formed
table, a second identical run produces zero inserts — every incoming
record's cleaned id is found in the rebuilt dedup index, so every record
classifies as an update — and the second run leaves the table state
exactly fixed, so a third run (same function of the same state) is
equivalent to the second. -/
theorem sync_engine_idempotent (jsD : String → Option Int) (tz : Int)
    (fm : List (String × String)) (videos : List Video) (st0 : TableState) (idF : String)
    (hid : getF fm "视频编号" = some idF)
    (hinj : getFInj fm)
    (hne : ∀ v ∈ videos, v.aweme_id ≠ "")
    (hclean : (videos.map (fun v => cleanId v.aweme_id)).Nodup)
    (hwf : WFState st0) :
    (classify jsD tz fm (tableIndex idF (runSync jsD tz fm videos st0).rows) videos).1 = []
  ∧ (∀ v ∈ videos, ∃ rid,
      mapGet (tableIndex idF (runSync jsD tz fm videos st0).rows) (cleanId v.aweme_id)
        = some rid)
  ∧ runSync jsD tz fm videos (runSync jsD tz fm videos st0) = runSync jsD tz fm videos st0 := by
  have hbf : ∀ w : Video, buildFields jsD tz fm w
      = some (emitFields fm (columnSpecs jsD tz w)) := by
    intro w; simp [buildFields, hid]
  have hkeysnd : ∀ w : Video, ((emitFields fm (columnSpecs jsD tz w)).map Prod.fst).Nodup :=
    fun w => emitFields_keys_nodup fm hinj _ (columnSpecs_names_nodup jsD tz w)
  have hcleaninj : ∀ v ∈ videos, ∀ w ∈ videos,
      cleanId v.aweme_id = cleanId w.aweme_id → v = w := by
    intro v hv w hw h
    exact List.inj_on_of_nodup_map hclean hv hw h
  have hrun : ∀ st : TableState, runSync jsD tz fm videos st
      = ⟨applyUpdates (st.rows ++ newRows st.nextId
            (classify jsD tz fm (tableIndex idF st.rows) videos).1)
          (classify jsD tz fm (tableIndex idF st.rows) videos).2,
         st.nextId + (classify jsD tz fm (tableIndex idF st.rows) videos).1.length⟩ := by
    intro st
    simp only [runSync, hid]
    rw [applyAdds_eq]
  have hupds : ∀ u ∈ (classify jsD tz fm (tableIndex idF st0.rows) videos).2,
      ∃ v ∈ videos, u.2 = emitFields fm (columnSpecs jsD tz v)
        ∧ mapGet (tableIndex idF st0.rows) (cleanId v.aweme_id) = some u.1 := by
    intro u hu
    obtain ⟨v, hv, hb, hm⟩ := classify_updates_mem jsD tz fm _ videos u hu
    rw [hbf v] at hb
    exact ⟨v, hv, (Option.some.inj hb).symm, hm⟩
  have htargets_lt : ∀ u ∈ (classify jsD tz fm (tableIndex idF st0.rows) videos).2,
      u.1 < st0.nextId := by
    intro u hu
    obtain ⟨v, hv, _, hm⟩ := hupds u hu
    obtain ⟨r, hr, hrid, _, _⟩ := mapGet_tableIndex_some idF st0.rows _ u.1 hm
    exact hrid ▸ hwf.2 r hr
  have hst1rows : (runSync jsD tz fm videos st0).rows
      = applyUpdates st0.rows (classify jsD tz fm (tableIndex idF st0.rows) videos).2
        ++ newRows st0.nextId (classify jsD tz fm (tableIndex idF st0.rows) videos).1 := by
    rw [hrun st0]
    exact applyUpdates_append _ st0.rows _
      (fun u hu r hr => by
        have h1 := (newRows_mem _ st0.nextId r hr).2
        have h2 := htargets_lt u hu
        omega)
  have hfp : (applyUpdates st0.rows
        (classify jsD tz fm (tableIndex idF st0.rows) videos).2).map (fpRow idF)
      = st0.rows.map (fpRow idF) := by
    apply applyUpdates_fp idF _ st0.rows st0.rows rfl hwf.1
    intro u hu
    obtain ⟨v, hv, hfs, hm⟩ := hupds u hu
    refine ⟨v.aweme_id, hne v hv, ?_, ?_, ?_⟩
    · rw [hfs, emitFields_head jsD tz fm v idF hid]; exact List.mem_cons_self _ _
    · rw [hfs]; exact hkeysnd v
    · exact mapGet_tableIndex_some idF st0.rows _ u.1 hm
  have hold_idx : ∀ k, mapGet (tableIndex idF (applyUpdates st0.rows
        (classify jsD tz fm (tableIndex idF st0.rows) videos).2)) k
      = mapGet (tableIndex idF st0.rows) k :=
    fun k => mapGet_tableIndex_congr idF _ _ hfp k
  have hnewmem : ∀ r ∈ newRows st0.nextId (classify jsD tz fm (tableIndex idF st0.rows) videos).1,
      ∃ w ∈ videos, r.cells = emitFields fm (columnSpecs jsD tz w)
        ∧ mapGet (tableIndex idF st0.rows) (cleanId w.aweme_id) = none := by
    intro r hr
    obtain ⟨hc, _⟩ := newRows_mem _ st0.nextId r hr
    obtain ⟨w, hw, hb, hm⟩ := classify_adds_mem jsD tz fm _ videos r.cells hc
    rw [hbf w] at hb
    exact ⟨w, hw, (Option.some.inj hb).symm, hm⟩
  have hrowkey : ∀ (w : Video) (r : Row), r.cells = emitFields fm (columnSpecs jsD tz w) →
      rowKey idF r = cleanId w.aweme_id ∧ (w.aweme_id ≠ "" → rowIndexed idF r = true) := by
    intro w r hc
    constructor
    · simp [rowKey, hc, readCell_emitFields jsD tz fm w idF hid]
    · intro hne'
      simp [rowIndexed, hc, readCell_emitFields jsD tz fm w idF hid, hne']
  have hKEY : ∀ v ∈ videos, ∃ rid,
      mapGet (tableIndex idF (runSync jsD tz fm videos st0).rows) (cleanId v.aweme_id)
        = some rid
      ∧ ∀ r ∈ (runSync jsD tz fm videos st0).rows, r.recordId = rid →
          setCells r.cells (emitFields fm (columnSpecs jsD tz v)) = r.cells := by
    intro v hv
    cases hm0 : mapGet (tableIndex idF st0.rows) (cleanId v.aweme_id) with
    | some rid =>
      refine ⟨rid, ?_, ?_⟩
      · rw [hst1rows, mapGet_tableIndex_append]
        have hnew_none : mapGet (tableIndex idF (newRows st0.nextId
            (classify jsD tz fm (tableIndex idF st0.rows) videos).1))
            (cleanId v.aweme_id) = none := by
          rw [mapGet_tableIndex]
          have hfind : (newRows st0.nextId
              (classify jsD tz fm (tableIndex idF st0.rows) videos).1).reverse.find?
              (fun r => rowIndexed idF r && (rowKey idF r == cleanId v.aweme_id)) = none := by
            rw [List.find?_eq_none]
            intro r hr hpred
            obtain ⟨w, hw, hc, hmw⟩ := hnewmem r (List.mem_reverse.mp hr)
            have hk := (hrowkey w r hc).1
            simp only [Bool.and_eq_true, beq_iff_eq] at hpred
            have hkeq : cleanId w.aweme_id = cleanId v.aweme_id := by
              rw [← hk]; exact hpred.2
            have hwv : w = v := hcleaninj w hw v hv hkeq
            subst hwv
            rw [hm0] at hmw
            cases hmw
          rw [hfind]
          rfl
        rw [hnew_none, hold_idx, hm0]
      · intro r hr hrid
        rw [hst1rows] at hr
        rcases List.mem_append.mp hr with hrold | hrnew
        · have hsplit := classify_update_split jsD tz fm (tableIndex idF st0.rows) videos v rid
            hv hclean hbf hm0
            (fun w hw hmw => by
              obtain ⟨r1, hr1, hr1id, _, hr1key⟩ :=
                mapGet_tableIndex_some idF st0.rows _ rid hmw
              obtain ⟨r2, hr2, hr2id, _, hr2key⟩ :=
                mapGet_tableIndex_some idF st0.rows _ rid hm0
              have h12 : r1 = r2 := List.inj_on_of_nodup_map hwf.1 hr1 hr2
                (by rw [hr1id, hr2id])
              subst h12
              have hkeq : cleanId w.aweme_id = cleanId v.aweme_id := by
                rw [← hr1key, hr2key]
              exact hcleaninj w hw v hv hkeq)
          obtain ⟨l₁, l₂, hleq, hl₁, hl₂⟩ := hsplit
          rw [applyUpdates_map] at hrold
          obtain ⟨r₀, hr₀, hrup⟩ := List.mem_map.mp hrold
          have hr₀id : r₀.recordId = rid := by
            rw [← hrid, ← hrup, updAll_recordId]
          rw [← hrup, hleq, updAll_split l₁ l₂ rid _ r₀ hr₀id hl₁ hl₂]
          show setCells (setCells r₀.cells _) _ = _
          rw [setCells_absorb _ (hkeysnd v)]
        · obtain ⟨_, hge⟩ := newRows_mem _ st0.nextId r hrnew
          obtain ⟨rr, hrr, hrrid, _, _⟩ := mapGet_tableIndex_some idF st0.rows _ rid hm0
          have hlt := hwf.2 rr hrr
          omega
    | none =>
      have hfsadd : emitFields fm (columnSpecs jsD tz v)
          ∈ (classify jsD tz fm (tableIndex idF st0.rows) videos).1 :=
        classify_adds_of jsD tz fm _ videos v hv _ (hbf v) hm0
      obtain ⟨rnew, hrnew, hcnew⟩ := newRows_exists _ st0.nextId _ hfsadd
      have hki := hrowkey v rnew hcnew
      obtain ⟨rid, hridnew⟩ := mapGet_tableIndex_isSome idF
        (newRows st0.nextId (classify jsD tz fm (tableIndex idF st0.rows) videos).1)
        (cleanId v.aweme_id) ⟨rnew, hrnew, hki.2 (hne v hv), hki.1⟩
      refine ⟨rid, ?_, ?_⟩
      · rw [hst1rows, mapGet_tableIndex_append, hridnew]
      · intro r hr hrid
        obtain ⟨rfound, hrfound, hfid, _, hfkey⟩ :=
          mapGet_tableIndex_some idF _ _ rid hridnew
        have hge : st0.nextId ≤ rid := hfid ▸ (newRows_mem _ st0.nextId rfound hrfound).2
        rw [hst1rows] at hr
        rcases List.mem_append.mp hr with hrold | hrnew2
        · have hmemid : r.recordId ∈ (applyUpdates st0.rows
              (classify jsD tz fm (tableIndex idF st0.rows) videos).2).map Row.recordId :=
            List.mem_map_of_mem _ hrold
          rw [applyUpdates_ids] at hmemid
          obtain ⟨r₀, hr₀, hr₀id⟩ := List.mem_map.mp hmemid
          have hlt := hwf.2 r₀ hr₀
          omega
        · obtain ⟨w, hw, hcw, hmw⟩ := hnewmem r hrnew2
          have hndnew : ((newRows st0.nextId
              (classify jsD tz fm (tableIndex idF st0.rows) videos).1).map
                Row.recordId).Nodup := by
            rw [newRows_ids]
            exact List.nodup_range' st0.nextId _
          have hreq : r = rfound := List.inj_on_of_nodup_map hndnew hrnew2 hrfound
            (by rw [hrid, hfid])
          subst hreq
          have hkeyr := (hrowkey w r hcw).1
          have hkeq : cleanId w.aweme_id = cleanId v.aweme_id := by
            rw [← hkeyr, hfkey]
          have hwv : w = v := hcleaninj w hw v hv hkeq
          subst hwv
          rw [hcw, setCells_self _ (hkeysnd w)]
  have hKey2 : ∀ v ∈ videos, ∃ rid,
      mapGet (tableIndex idF (runSync jsD tz fm videos st0).rows) (cleanId v.aweme_id)
        = some rid :=
    fun v hv => ((hKEY v hv).imp (fun rid h => h.1))
  refine ⟨classify_adds_nil jsD tz fm _ videos hKey2, hKey2, ?_⟩
  rw [hrun (runSync jsD tz fm videos st0),
    classify_adds_nil jsD tz fm _ videos hKey2]
  have h1 : newRows (runSync jsD tz fm videos st0).nextId
      ([] : List (List (String × FieldVal))) = [] := rfl
  rw [h1, List.append_nil]
  have hidentity : ∀ us : List (Nat × List (String × FieldVal)),
      (∀ u ∈ us, applyUpdate (runSync jsD tz fm videos st0).rows u
        = (runSync jsD tz fm videos st0).rows) →
      applyUpdates (runSync jsD tz fm videos st0).rows us
        = (runSync jsD tz fm videos st0).rows := by
    intro us
    induction us with
    | nil => intro _; rfl
    | cons u us ih =>
      intro h
      show applyUpdates (applyUpdate _ u) us = _
      rw [h u (List.mem_cons_self _ _)]
      exact ih (fun u' hu' => h u' (List.mem_cons_of_mem _ hu'))
  rw [hidentity _ ?_]
  · show (⟨(runSync jsD tz fm videos st0).rows,
        (runSync jsD tz fm videos st0).nextId + List.length []⟩ : TableState)
      = runSync jsD tz fm videos st0
    simp
  · intro u hu
    obtain ⟨v, hv, hfs, hm⟩ := classify_updates_mem jsD tz fm _ videos u hu
    rw [hbf v] at hfs
    have hfs' : u.2 = emitFields fm (columnSpecs jsD tz v) := (Option.some.inj hfs).symm
    obtain ⟨rid, hrid, habs⟩ := hKEY v hv
    have hu1 : u.1 = rid := by
      rw [hm] at hrid
      exact Option.some.inj hrid
    rw [applyUpdate]
    conv_rhs => rw [← List.map_id (runSync jsD tz fm videos st0).rows]
    apply List.map_congr_left
    intro r hr
    by_cases hid2 : r.recordId = u.1
    · rw [if_pos hid2]
      have habs' := habs r hr (by rw [hid2, hu1])
      show (⟨r.recordId, setCells r.cells u.2⟩ : Row) = r
      rw [hfs', habs']
    · rw [if_neg hid2]
      rfl

/-- Witness for the C1 theorem: one video synced twice into an initially
empty table; the third run's state equals the second's. -/
theorem sync_engine_idempotent_witness :
    runSync (fun _ => none) 0 [("视频编号", "fid")]
        [Video.mk "n" "A1" "u" RawDate.nullv "d" none none none none "p" "a" none none none]
        (runSync (fun _ => none) 0 [("视频编号", "fid")]
          [Video.mk "n" "A1" "u" RawDate.nullv "d" none none none none "p" "a" none none none]
          ⟨[], 0⟩)
      = runSync (fun _ => none) 0 [("视频编号", "fid")]
          [Video.mk "n" "A1" "u" RawDate.nullv "d" none none none none "p" "a" none none none]
          ⟨[], 0⟩ :=
  (sync_engine_idempotent (fun _ => none) 0 [("视频编号", "fid")]
    [Video.mk "n" "A1" "u" RawDate.nullv "d" none none none none "p" "a" none none none]
    ⟨[], 0⟩ "fid" (by decide) (by decide) (by decide) (by decide) (by decide)).2.2

end OpenLinks
